import Mathlib

/-!
Verification of the PyGreSQL result-value casting and text-format parsing
engine (`src/pginternal.c`), as a shallow embedding in Lean 4.

Strings from the C code are modelled as `List Char`; machine pointers
walking a NUL-terminated buffer become explicit list cursors (reading the
terminator at the end of the buffer is modelled by a `Char.ofNat 0`
sentinel).  Python objects produced by the caster become the inductive
type `PValue`; calls into external libraries (the Python numeric parsers,
`PQunescapeBytea`, the configured `decimal` and `jsondecode` callables)
are modelled by dedicated constructors carrying the exact character data
the C code would hand to them.  Fallible C functions (returning NULL with
a Python exception set) become `Except String` with the exception message.

Loops of the C code are embedded as fuel-indexed structural recursions;
every loop of the source consumes at least one input character per
iteration, so fuel `length + 1` is always sufficient and the fuel-out
branch is unreachable (the theorems never rely on it).
-/

namespace PyGre

/-! ## PyGreSQL internal type tags (pginternal.c lines 16-29) -/

def PYGRES_INT : Nat := 1
def PYGRES_LONG : Nat := 2
def PYGRES_FLOAT : Nat := 3
def PYGRES_DECIMAL : Nat := 4
def PYGRES_MONEY : Nat := 5
def PYGRES_BOOL : Nat := 6
def PYGRES_TEXT : Nat := 8
def PYGRES_BYTEA : Nat := 9
def PYGRES_JSON : Nat := 10
def PYGRES_OTHER : Nat := 11
def PYGRES_ARRAY : Nat := 16

/-- `MAX_ARRAY_DEPTH` from `src/ext/pgmodule.h` line 38. -/
def MAX_ARRAY_DEPTH : Nat := 16

/-! ## PostgreSQL type oids.

Modelled from the spec: the header `pgtypes.h` included by the module is
not present under `src/`; the oid constants used by `get_type` are the
standard PostgreSQL catalog oids (the spec calls them "backend type
identifiers").  Only their distinctness matters for the claims. -/

def BOOLOID : Nat := 16
def BYTEAOID : Nat := 17
def CHAROID : Nat := 18
def NAMEOID : Nat := 19
def INT8OID : Nat := 20
def INT2OID : Nat := 21
def INT4OID : Nat := 23
def TEXTOID : Nat := 25
def OIDOID : Nat := 26
def XIDOID : Nat := 28
def CIDOID : Nat := 29
def JSONOID : Nat := 114
def JSONARRAYOID : Nat := 199
def FLOAT4OID : Nat := 700
def FLOAT8OID : Nat := 701
def CASHOID : Nat := 790
def MONEYARRAYOID : Nat := 791
def BOOLARRAYOID : Nat := 1000
def BYTEAARRAYOID : Nat := 1001
def CHARARRAYOID : Nat := 1002
def NAMEARRAYOID : Nat := 1003
def INT2ARRAYOID : Nat := 1005
def INT4ARRAYOID : Nat := 1007
def TEXTARRAYOID : Nat := 1009
def XIDARRAYOID : Nat := 1011
def CIDARRAYOID : Nat := 1012
def BPCHARARRAYOID : Nat := 1014
def VARCHARARRAYOID : Nat := 1015
def INT8ARRAYOID : Nat := 1016
def FLOAT4ARRAYOID : Nat := 1021
def FLOAT8ARRAYOID : Nat := 1022
def OIDARRAYOID : Nat := 1028
def NUMERICARRAYOID : Nat := 1231
def BPCHAROID : Nat := 1042
def VARCHAROID : Nat := 1043
def NUMERICOID : Nat := 1700
def REGTYPEOID : Nat := 2206
def REGTYPEARRAYOID : Nat := 2211
def JSONBOID : Nat := 3802
def JSONBARRAYOID : Nat := 3807

/-! ## Cast configuration.

The C module keeps these as file-scope globals (`decimal`,
`decimal_point`, `bool_as_text`, `array_as_text`, `bytea_escaped`,
`jsondecode`, declared in `src/ext/pgmodule.h`).  We pass them as an
explicit record.  The `decimal` and `jsondecode` Python callables are
modelled only by their presence (the cast result carries the string the
callable would receive). -/

structure Config where
  /-- whether a decimal constructor is configured (C global `decimal`) -/
  decimal : Bool
  /-- money decimal point, `none` models the C char value 0 (unset) -/
  decimal_point : Option Char
  /-- whether bool is returned as text -/
  bool_as_text : Bool
  /-- whether arrays are returned as text -/
  array_as_text : Bool
  /-- whether bytea is returned escaped -/
  bytea_escaped : Bool
  /-- whether a JSON decode callable is configured -/
  jsondecode : Bool
  deriving Repr, DecidableEq

/-! ## The type classifier `get_type` (pginternal.c lines 63-176). -/

def get_type (cfg : Config) (pgtype : Nat) : Nat :=
  if pgtype = INT2OID ∨ pgtype = INT4OID ∨ pgtype = CIDOID ∨ pgtype = OIDOID ∨
      pgtype = XIDOID then PYGRES_INT
  else if pgtype = INT8OID then PYGRES_LONG
  else if pgtype = FLOAT4OID ∨ pgtype = FLOAT8OID then PYGRES_FLOAT
  else if pgtype = NUMERICOID then PYGRES_DECIMAL
  else if pgtype = CASHOID then
    (if cfg.decimal_point.isSome then PYGRES_MONEY else PYGRES_TEXT)
  else if pgtype = BOOLOID then PYGRES_BOOL
  else if pgtype = BYTEAOID then
    (if cfg.bytea_escaped then PYGRES_TEXT else PYGRES_BYTEA)
  else if pgtype = JSONOID ∨ pgtype = JSONBOID then
    (if cfg.jsondecode then PYGRES_JSON else PYGRES_TEXT)
  else if pgtype = BPCHAROID ∨ pgtype = CHAROID ∨ pgtype = TEXTOID ∨
      pgtype = VARCHAROID ∨ pgtype = NAMEOID ∨ pgtype = REGTYPEOID then PYGRES_TEXT
  else if pgtype = INT2ARRAYOID ∨ pgtype = INT4ARRAYOID ∨ pgtype = CIDARRAYOID ∨
      pgtype = OIDARRAYOID ∨ pgtype = XIDARRAYOID then
    (if cfg.array_as_text then PYGRES_TEXT else PYGRES_INT ||| PYGRES_ARRAY)
  else if pgtype = INT8ARRAYOID then
    (if cfg.array_as_text then PYGRES_TEXT else PYGRES_LONG ||| PYGRES_ARRAY)
  else if pgtype = FLOAT4ARRAYOID ∨ pgtype = FLOAT8ARRAYOID then
    (if cfg.array_as_text then PYGRES_TEXT else PYGRES_FLOAT ||| PYGRES_ARRAY)
  else if pgtype = NUMERICARRAYOID then
    (if cfg.array_as_text then PYGRES_TEXT else PYGRES_DECIMAL ||| PYGRES_ARRAY)
  else if pgtype = MONEYARRAYOID then
    (if cfg.array_as_text then PYGRES_TEXT else
      (if cfg.decimal_point.isSome then PYGRES_MONEY else PYGRES_TEXT) ||| PYGRES_ARRAY)
  else if pgtype = BOOLARRAYOID then
    (if cfg.array_as_text then PYGRES_TEXT else PYGRES_BOOL ||| PYGRES_ARRAY)
  else if pgtype = BYTEAARRAYOID then
    (if cfg.array_as_text then PYGRES_TEXT else
      (if cfg.bytea_escaped then PYGRES_TEXT else PYGRES_BYTEA) ||| PYGRES_ARRAY)
  else if pgtype = JSONARRAYOID ∨ pgtype = JSONBARRAYOID then
    (if cfg.array_as_text then PYGRES_TEXT else
      (if cfg.jsondecode then PYGRES_JSON else PYGRES_TEXT) ||| PYGRES_ARRAY)
  else if pgtype = BPCHARARRAYOID ∨ pgtype = CHARARRAYOID ∨ pgtype = TEXTARRAYOID ∨
      pgtype = VARCHARARRAYOID ∨ pgtype = NAMEARRAYOID ∨ pgtype = REGTYPEARRAYOID then
    (if cfg.array_as_text then PYGRES_TEXT else PYGRES_TEXT ||| PYGRES_ARRAY)
  else PYGRES_OTHER

/-- The set of oids `get_type` recognizes: every `case` label of its
`switch` statement.  Everything else falls into the `default:` branch. -/
def recognizedOids : List Nat :=
  [INT2OID, INT4OID, CIDOID, OIDOID, XIDOID, INT8OID, FLOAT4OID, FLOAT8OID,
   NUMERICOID, CASHOID, BOOLOID, BYTEAOID, JSONOID, JSONBOID, BPCHAROID,
   CHAROID, TEXTOID, VARCHAROID, NAMEOID, REGTYPEOID,
   INT2ARRAYOID, INT4ARRAYOID, CIDARRAYOID, OIDARRAYOID, XIDARRAYOID,
   INT8ARRAYOID, FLOAT4ARRAYOID, FLOAT8ARRAYOID, NUMERICARRAYOID,
   MONEYARRAYOID, BOOLARRAYOID, BYTEAARRAYOID, JSONARRAYOID, JSONBARRAYOID,
   BPCHARARRAYOID, CHARARRAYOID, TEXTARRAYOID, VARCHARARRAYOID,
   NAMEARRAYOID, REGTYPEARRAYOID]

/-- The array oids among the recognized oids. -/
def arrayOids : List Nat :=
  [INT2ARRAYOID, INT4ARRAYOID, CIDARRAYOID, OIDARRAYOID, XIDARRAYOID,
   INT8ARRAYOID, FLOAT4ARRAYOID, FLOAT8ARRAYOID, NUMERICARRAYOID,
   MONEYARRAYOID, BOOLARRAYOID, BYTEAARRAYOID, JSONARRAYOID, JSONBARRAYOID,
   BPCHARARRAYOID, CHARARRAYOID, TEXTARRAYOID, VARCHARARRAYOID,
   NAMEARRAYOID, REGTYPEARRAYOID]

/-- The scalar oid whose values an array oid's elements have (the
"corresponding base" of the spec); identity on non-array oids. -/
def elemOid (pgtype : Nat) : Nat :=
  if pgtype = INT2ARRAYOID then INT2OID
  else if pgtype = INT4ARRAYOID then INT4OID
  else if pgtype = CIDARRAYOID then CIDOID
  else if pgtype = OIDARRAYOID then OIDOID
  else if pgtype = XIDARRAYOID then XIDOID
  else if pgtype = INT8ARRAYOID then INT8OID
  else if pgtype = FLOAT4ARRAYOID then FLOAT4OID
  else if pgtype = FLOAT8ARRAYOID then FLOAT8OID
  else if pgtype = NUMERICARRAYOID then NUMERICOID
  else if pgtype = MONEYARRAYOID then CASHOID
  else if pgtype = BOOLARRAYOID then BOOLOID
  else if pgtype = BYTEAARRAYOID then BYTEAOID
  else if pgtype = JSONARRAYOID then JSONOID
  else if pgtype = JSONBARRAYOID then JSONBOID
  else if pgtype = BPCHARARRAYOID then BPCHAROID
  else if pgtype = CHARARRAYOID then CHAROID
  else if pgtype = TEXTARRAYOID then TEXTOID
  else if pgtype = VARCHARARRAYOID then VARCHAROID
  else if pgtype = NAMEARRAYOID then NAMEOID
  else if pgtype = REGTYPEARRAYOID then REGTYPEOID
  else pgtype

/-! ## Parsed values.

The decoder's output, the spec's `ParsedValue`.  Constructors for results
produced by external collaborators carry the exact character data the C
code hands to them:
* `floatStr s`   — `PyFloat_FromString` applied to the text `s`;
* `decimalStr s` — the configured `decimal` constructor applied to `s`;
* `byteaDec s`   — `PQunescapeBytea` applied to `s` (libpq, external);
* `jsonDec s`    — the configured `jsondecode` callable applied to `s`. -/

inductive PValue where
  | none
  | int (n : Int)
  | boolV (b : Bool)
  | floatStr (s : List Char)
  | decimalStr (s : List Char)
  | text (s : List Char)
  | byteaDec (s : List Char)
  | jsonDec (s : List Char)
  | list (xs : List PValue)
  deriving Repr

/-! ## Character-level helpers shared by the parsers. -/

/-- Skip blanks: the pervasive `while (s != end && *s == ' ') ++s;`. -/
def skipSp : List Char → List Char
  | ' ' :: s => skipSp s
  | s => s

/-- `*s` on a NUL-terminated buffer: reading at the end gives the
terminator. -/
def peekC : List Char → Char
  | [] => Char.ofNat 0
  | c :: _ => c

/-- `++s` clamped at the end of the buffer. -/
def tl : List Char → List Char
  | [] => []
  | _ :: s => s

def isDig (c : Char) : Bool := '0' ≤ c ∧ c ≤ '9'

/-- The `STR_IS_NULL` macro (pginternal.c lines 447-452): a quick case
insensitive check whether the sized string is the four characters NULL. -/
def strIsNull (s : List Char) : Bool :=
  match s with
  | [c0, c1, c2, c3] =>
    (c0 = 'n' ∨ c0 = 'N') ∧ (c1 = 'u' ∨ c1 = 'U') ∧
    (c2 = 'l' ∨ c2 = 'L') ∧ (c3 = 'l' ∨ c3 = 'L')
  | _ => false

/-! ## The scalar caster `cast_sized_simple` (pginternal.c lines 284-373). -/

/-- `PyInt_FromString` / `PyLong_FromString` with base 10 and `pend = NULL`:
leading and trailing blanks are allowed, then an optional sign and at
least one decimal digit; anything else raises `ValueError`.  (Python also
accepts other whitespace characters; only the blank matters here.) -/
def intSign : List Char → Bool × List Char
  | '-' :: r => (true, r)
  | '+' :: r => (false, r)
  | r => (false, r)

def parseInt10 (s : List Char) : Except String Int :=
  let p := intSign (s.dropWhile (· = ' '))
  let digits := p.2.takeWhile isDig
  let rest := p.2.dropWhile isDig
  if digits = [] ∨ rest.dropWhile (· = ' ') ≠ [] then
    .error "invalid literal for int with base 10"
  else
    let n : Nat := digits.foldl (fun a c => a * 10 + (c.toNat - 48)) 0
    .ok (if p.1 then -(n : Int) else (n : Int))

/-- The `PYGRES_MONEY` normalization loop of `cast_sized_simple`
(pginternal.c lines 326-336): keep digits, map the configured decimal
point to a dot and an opening parenthesis or minus to a minus, drop
everything else; stop once `n` output characters were produced. -/
def moneyLoop (cfg : Config) (n : Nat) : Nat → List Char → List Char
  | _, [] => []
  | j, c :: rest =>
    if j < n then
      if isDig c then c :: moneyLoop cfg n (j + 1) rest
      else if cfg.decimal_point = some c then '.' :: moneyLoop cfg n (j + 1) rest
      else if c = '(' ∨ c = '-' then '-' :: moneyLoop cfg n (j + 1) rest
      else moneyLoop cfg n j rest
    else []

/-- The same normalization without the output bound (used to state the
truncation property). -/
def moneyNormAll (cfg : Config) : List Char → List Char
  | [] => []
  | c :: rest =>
    if isDig c then c :: moneyNormAll cfg rest
    else if cfg.decimal_point = some c then '.' :: moneyNormAll cfg rest
    else if c = '(' ∨ c = '-' then '-' :: moneyNormAll cfg rest
    else moneyNormAll cfg rest

/-- `cast_sized_simple` (pginternal.c lines 284-373).  The `char buf[64]`
buffer holds at most `sizeof(buf) - 1 = 63` characters; the INT and LONG
branches copy at most 63 input bytes into it, the MONEY branch stops
after 63 normalized characters. -/
def castSizedSimple (cfg : Config) (s : List Char) (typ : Nat) :
    Except String PValue :=
  if typ = PYGRES_INT then
    (parseInt10 (s.take 63)).map PValue.int
  else if typ = PYGRES_LONG then
    (parseInt10 (s.take 63)).map PValue.int
  else if typ = PYGRES_FLOAT then
    .ok (.floatStr s)
  else if typ = PYGRES_MONEY then
    let buf := moneyLoop cfg 63 0 s
    .ok (if cfg.decimal then .decimalStr buf else .floatStr buf)
  else if typ = PYGRES_DECIMAL then
    .ok (if cfg.decimal then .decimalStr s else .floatStr s)
  else if typ = PYGRES_BOOL then
    .ok (if cfg.bool_as_text then
          .text (if peekC s = 't' then ['t'] else ['f'])
         else .boolV (peekC s = 't'))
  else
    .ok (.text s)

/-- `cast_sized_text` (pginternal.c lines 215-261).  Text decoding by the
client encoding is modelled as the identity on characters; the bytea
unescape and the JSON decode are external calls, modelled by their
dedicated constructors. -/
def castSizedText (cfg : Config) (s : List Char) (typ : Nat) :
    Except String PValue :=
  if typ = PYGRES_BYTEA then .ok (.byteaDec s)
  else if typ = PYGRES_JSON then
    .ok (if cfg.jsondecode then .jsonDec s else .text s)
  else .ok (.text s)

/-! ## The array parser `cast_array` (pginternal.c lines 459-674). -/

/-- Scan of a quoted array element (pginternal.c lines 564-571): walk
until the closing quote, a backslash always consuming the following
character as well.  Returns the raw span between the quotes (escape
characters included) and the rest of the input, which starts at the
closing quote, or is empty when the input ended first. -/
def scanQ : List Char → List Char × List Char
  | [] => ([], [])
  | c :: rest =>
    if c = '"' then ([], c :: rest)
    else if c = '\\' then
      match rest with
      | [] => (['\\'], [])
      | c2 :: rest2 =>
        let (r, t) := scanQ rest2
        ('\\' :: c2 :: r, t)
    else
      let (r, t) := scanQ rest
      (c :: r, t)

/-- Scan of an unquoted array element (pginternal.c lines 576-586): walk
until a quote, brace or the delimiter, a backslash always consuming the
following character as well. -/
def scanUnq (delim : Char) : List Char → List Char × List Char
  | [] => ([], [])
  | c :: rest =>
    if c = '"' ∨ c = '{' ∨ c = '}' ∨ c = delim then ([], c :: rest)
    else if c = '\\' then
      match rest with
      | [] => (['\\'], [])
      | c2 :: rest2 =>
        let (r, t) := scanUnq delim rest2
        ('\\' :: c2 :: r, t)
    else
      let (r, t) := scanUnq delim rest
      (c :: r, t)

/-- Trailing-blank trim of an unquoted element (pginternal.c line 587). -/
def trimR (s : List Char) : List Char :=
  (s.reverse.dropWhile (· = ' ')).reverse

/-- The unescape loop of `cast_array` (pginternal.c lines 606-609):
`for (i = 0; i < esize; ++i) { if (*t == '\x5c') ++t, ++i; *r++ = *t++; }`.
The first argument is the remaining value of `esize - i`; note that a
backslash advances the cursor past the counted region, so the source list
is the untrimmed raw span. -/
def unescA : Nat → List Char → List Char
  | 0, _ => []
  | _, [] => []
  | n + 1, c :: rest =>
    if c = '\\' then
      match rest with
      | [] => []
      | c2 :: rest2 => c2 :: unescA (n - 1) rest2
    else c :: unescA n rest

/-- Casting of one array element (pginternal.c lines 612-631): internal
cast by the base type when a type is given, otherwise the decoded string
(modelled as text), passed through the external cast function if any. -/
def castElem (cfg : Config) (typ : Nat)
    (ecast : Option (List Char → Except String PValue)) (content : List Char) :
    Except String PValue :=
  if typ ≠ 0 then
    if typ &&& PYGRES_TEXT ≠ 0 then castSizedText cfg content typ
    else castSizedSimple cfg content typ
  else
    match ecast with
    | some f => f content
    | Option.none => .ok (.text content)

/-- Outcome of the main parsing loop of `cast_array`: `brk` is a loop
exit (a `break` or the `while` condition failing) carrying the current
result list and cursor, `err` an error return from inside the loop. -/
inductive AOut where
  | brk (result : List PValue) (rest : List Char)
  | err (msg : String)
  | fuelOut
  deriving Repr

/-- The main parsing loop of `cast_array` (pginternal.c lines 529-661).
`stack` holds the partial lists of the enclosing levels (innermost
first); the C invariant `level = number of stacked lists` is kept by
passing both.  One unit of fuel is one loop iteration; every iteration
that continues consumes at least one character, so fuel `length + 1`
never runs out. -/
def aLoop (cfg : Config) (typ : Nat)
    (ecast : Option (List Char → Except String PValue)) (delim : Char)
    (depth : Nat) :
    Nat → List Char → List (List PValue) → List PValue → Nat → AOut
  | 0, _, _, _, _ => .fuelOut
  | _ + 1, [], _, result, _ => .brk result []
  | fuel + 1, c :: s, stack, result, level =>
    if c = '}' then
      if level = 0 then .brk result (c :: s)
      else
        match skipSp s with
        | [] => .brk result []
        | c1 :: s2 =>
          if c1 = delim then
            match skipSp s2 with
            | [] => .brk result []
            | c3 :: s4 =>
              if c3 ≠ '{' then .err "Subarray expected but not found"
              else
                match stack with
                | top :: stack2 =>
                  aLoop cfg typ ecast delim depth fuel (c3 :: s4) stack2
                    (top ++ [.list result]) (level - 1)
                | [] => .err "Invalid parser state"
          else if c1 ≠ '}' then .brk result (c1 :: s2)
          else
            match stack with
            | top :: stack2 =>
              aLoop cfg typ ecast delim depth fuel (c1 :: s2) stack2
                (top ++ [.list result]) (level - 1)
            | [] => .err "Invalid parser state"
    else if level = depth then
      if c = '{' then .err "Subarray found where not expected"
      else if c = '"' then
        let (raw, rest0) := scanQ s
        match skipSp (tl rest0) with
        | [] => .brk result []
        | r :: rs =>
          let esize := raw.length
          let content := if raw.any (· = '\\') then unescA esize raw else raw
          match castElem cfg typ ecast content with
          | .error e => .err e
          | .ok el =>
            if r = delim then
              match skipSp rs with
              | [] => .brk (result ++ [el]) []
              | c5 :: s6 =>
                aLoop cfg typ ecast delim depth fuel (c5 :: s6) stack
                  (result ++ [el]) level
            else if r ≠ '}' then .brk (result ++ [el]) (r :: rs)
            else
              aLoop cfg typ ecast delim depth fuel (r :: rs) stack
                (result ++ [el]) level
      else
        let (raw, rest0) := scanUnq delim (c :: s)
        let esize := (trimR raw).length
        if esize = 0 then .brk result []
        else
          match rest0 with
          | [] => .brk result []
          | r :: rs =>
            if strIsNull (raw.take esize) then
              if r = delim then
                match skipSp rs with
                | [] => .brk (result ++ [.none]) []
                | c5 :: s6 =>
                  aLoop cfg typ ecast delim depth fuel (c5 :: s6) stack
                    (result ++ [.none]) level
              else if r ≠ '}' then .brk (result ++ [.none]) (r :: rs)
              else
                aLoop cfg typ ecast delim depth fuel (r :: rs) stack
                  (result ++ [.none]) level
            else
              let content := if raw.any (· = '\\') then unescA esize raw
                             else raw.take esize
              match castElem cfg typ ecast content with
              | .error e => .err e
              | .ok el =>
                if r = delim then
                  match skipSp rs with
                  | [] => .brk (result ++ [el]) []
                  | c5 :: s6 =>
                    aLoop cfg typ ecast delim depth fuel (c5 :: s6) stack
                      (result ++ [el]) level
                else if r ≠ '}' then .brk (result ++ [el]) (r :: rs)
                else
                  aLoop cfg typ ecast delim depth fuel (r :: rs) stack
                    (result ++ [el]) level
    else
      if c ≠ '{' then .err "Subarray must start with a left brace"
      else
        match skipSp s with
        | [] => .brk result []
        | c1 :: s2 =>
          aLoop cfg typ ecast delim depth fuel (c1 :: s2) (result :: stack)
            [] (level + 1)

/-- The dimension-ranges loop of `cast_array` (pginternal.c lines
481-505): a sequence of `[n:m]` groups, blanks allowed, terminated by
`=`; returns the number of ranges and the input after the `=` and
following blanks, or `none` when the loop ends without having seen the
terminating `=` (i.e. `valid` stayed 0). -/
def parseDimsLoop : Nat → List Char → Nat → Option (Nat × List Char)
  | 0, _, _ => Option.none
  | _ + 1, [], _ => Option.none
  | fuel + 1, c :: s, ranges =>
    if c ≠ '[' then Option.none
    else
      let s1 := skipSp s
      let s2 := match s1 with
                | c1 :: t => if c1 = '+' ∨ c1 = '-' then t else s1
                | [] => s1
      match s2 with
      | [] => Option.none
      | c2 :: _ =>
        if ¬ isDig c2 then Option.none
        else
          match s2.dropWhile isDig with
          | ':' :: s4 =>
            let s5 := match s4 with
                      | c4 :: t => if c4 = '+' ∨ c4 = '-' then t else s4
                      | [] => s4
            match s5 with
            | [] => Option.none
            | c5 :: _ =>
              if ¬ isDig c5 then Option.none
              else
                match s5.dropWhile isDig with
                | ']' :: s6 =>
                  let s7 := skipSp s6
                  match s7 with
                  | '=' :: s8 => some (ranges + 1, skipSp s8)
                  | _ => parseDimsLoop fuel s7 (ranges + 1)
                | _ => Option.none
          | _ => Option.none

/-- The brace-depth scan of `cast_array` (pginternal.c lines 507-509):
count left braces, skipping blanks, until any other character. -/
def countBraces : List Char → Nat
  | '{' :: s => countBraces s + 1
  | ' ' :: s => countBraces s
  | _ => 0

/-- `cast_array` (pginternal.c lines 459-674).  Returns the parsed
top-level list or the `ValueError` message the C code sets.  The
`encoding` parameter is dropped (decoding is modelled as the identity);
`typ0 = 0` with an `ecast` function is the external-cast path. -/
def castArray (cfg : Config) (input : List Char) (typ0 : Nat)
    (ecast : Option (List Char → Except String PValue)) (delim0 : Char) :
    Except String (List PValue) :=
  let typ := if typ0 ≠ 0 then
               let t := if typ0.testBit 4 then typ0 - PYGRES_ARRAY else typ0
               if t = 0 then PYGRES_TEXT else t
             else 0
  if delim0 ≠ Char.ofNat 0 ∧ (delim0 = '{' ∨ delim0 = '}' ∨ delim0 = '\\') then
    .error "Invalid array delimiter"
  else
    let delim := if delim0 = Char.ofNat 0 then ',' else delim0
    let s0 := skipSp input
    match (if peekC s0 = '[' then parseDimsLoop (s0.length + 1) s0 0
           else some (0, s0)) with
    | Option.none => .error "Invalid array dimensions"
    | some (ranges, s1) =>
      let depth0 := countBraces s1
      if depth0 = 0 then .error "Array must start with a left brace"
      else if ranges ≠ 0 ∧ depth0 ≠ ranges then
        .error "Array dimensions do not match content"
      else if depth0 > MAX_ARRAY_DEPTH then .error "Array is too deeply nested"
      else
        let s2 := skipSp (tl s1)
        match aLoop cfg typ ecast delim (depth0 - 1) (s2.length + 1) s2 [] [] 0 with
        | .err e => .error e
        | .fuelOut => .error "Fuel exhausted"
        | .brk result rest =>
          match rest with
          | '}' :: rest2 =>
            if skipSp rest2 = [] then .ok result
            else .error "Unexpected characters after end of array"
          | _ => .error "Unexpected end of array"

/-! ## The record parser `cast_record` (pginternal.c lines 682-838). -/

/-- Field scan of `cast_record` (pginternal.c lines 723-737): walk until
an unquoted closing parenthesis or delimiter, double quotes toggling
quoted mode (a doubled quote inside quoted mode is content), a backslash
always consuming the following character.  Returns `esize` (the count of
content characters), the raw consumed span, and the rest (starting at the
terminating parenthesis or delimiter), or `none` when the input ended
first (the C loop leaves `s == end` and the caller breaks). -/
def scanField (delim : Char) : Bool → List Char → Option (Nat × List Char × List Char)
  | _, [] => Option.none
  | q, c :: rest =>
    if ¬ q ∧ (c = ')' ∨ c = delim) then some (0, [], c :: rest)
    else if c = '"' then
      if q ∧ peekC rest = '"' then
        match rest with
        | [] => Option.none
        | c2 :: rest2 =>
          (scanField delim q rest2).map fun (n, raw, r) =>
            (n + 1, '"' :: c2 :: raw, r)
      else if rest = [] then Option.none
      else
        (scanField delim (! q) rest).map fun (n, raw, r) =>
          (n, '"' :: raw, r)
    else if c = '\\' then
      match rest with
      | [] => Option.none
      | c2 :: rest2 =>
        (scanField delim q rest2).map fun (n, raw, r) =>
          (n + 1, c :: c2 :: raw, r)
    else
      (scanField delim q rest).map fun (n, raw, r) => (n + 1, c :: raw, r)

/-- The unescape loop of `cast_record` (pginternal.c lines 749-760):
rebuild the content from the raw span, dropping quote characters
(toggling quoted mode, a doubled quote in quoted mode yielding one
quote) and backslashes. -/
def unescRec (q : Bool) : List Char → List Char
  | [] => []
  | c :: rest =>
    if c = '"' then
      match rest with
      | [] => []
      | c2 :: rest2 =>
        if q ∧ c2 = '"' then '"' :: unescRec q rest2
        else unescRec (¬ q) (c2 :: rest2)
    else if c = '\\' then
      match rest with
      | [] => []
      | c2 :: rest2 => c2 :: unescRec q rest2
    else c :: unescRec q rest

/-- The external cast argument of `cast_record`: absent, a single
callable (used when no record size is given), or a sequence of optional
callables indexed by column (used with a record size; `Option.none`
entries model `Py_None`, "no cast for this column"). -/
inductive RecCast where
  | nocast
  | single (f : PValue → Except String PValue)
  | seq (fs : List (Option (PValue → Except String PValue)))

/-- Casting of one record field (pginternal.c lines 762-803): by the
supplied internal type array (routing array types to `cast_array`, text
types to `cast_sized_text` and the rest to `cast_sized_simple`), else by
the external cast(s). -/
def recElemCast (cfg : Config) (types : Option (List Nat)) (rcast : RecCast)
    (len i : Nat) (content : List Char) : Except String PValue :=
  match types with
  | some ts =>
    let etype := ts.getD i 0
    if etype &&& PYGRES_ARRAY ≠ 0 then
      (castArray cfg content etype Option.none (Char.ofNat 0)).map .list
    else if etype &&& PYGRES_TEXT ≠ 0 then castSizedText cfg content etype
    else castSizedSimple cfg content etype
  | Option.none =>
    let el := PValue.text content
    match rcast with
    | .nocast => .ok el
    | .single f =>
      if len ≠ 0 then .error "cast is not a sequence" else f el
    | .seq fs =>
      if len = 0 then .error "cast is not callable"
      else
        match fs.get? i with
        | some (some f) => f el
        | some Option.none => .ok el
        | Option.none => .error "cast sequence too short"

/-- Outcome of the main loop of `cast_record`, carrying the result list,
the column counter `i` and the cursor at loop exit. -/
inductive ROut where
  | brk (result : List PValue) (i : Nat) (rest : List Char)
  | err (msg : String)
  | fuelOut
  deriving Repr

/-- The main loop of `cast_record` (pginternal.c lines 709-819),
`while (++s != end) { ... }`: the cursor handed to each iteration still
holds the character the `++s` consumes (the opening parenthesis for the
first iteration, the delimiter afterwards). -/
def rLoop (cfg : Config) (types : Option (List Nat)) (rcast : RecCast)
    (len : Nat) (delim : Char) :
    Nat → List Char → List PValue → Nat → ROut
  | 0, _, _, _ => .fuelOut
  | _ + 1, [], result, i => .brk result i []
  | fuel + 1, _ :: s1, result, i =>
    match s1 with
    | [] => .brk result i []
    | c :: s2 =>
      if c = ')' ∨ c = delim then
        let result := result ++ [PValue.none]
        let i := if len ≠ 0 then i + 1 else i
        if c ≠ delim then .brk result i s1
        else if len ≠ 0 ∧ i ≥ len then .err "Too many columns"
        else rLoop cfg types rcast len delim fuel s1 result i
      else
        let q0 := c = '"'
        match scanField delim q0 (if q0 then s2 else s1) with
        | Option.none => .brk result i []
        | some (esize, raw, rest) =>
          let rawFull := if q0 then c :: raw else raw
          let content := if rawFull.length = esize then rawFull
                         else unescRec false rawFull
          match recElemCast cfg types rcast len i content with
          | .error e => .err e
          | .ok el =>
            let result := result ++ [el]
            let i := if len ≠ 0 then i + 1 else i
            match rest with
            | [] => .brk result i []
            | r :: _ =>
              if r ≠ delim then .brk result i rest
              else if len ≠ 0 ∧ i ≥ len then .err "Too many columns"
              else rLoop cfg types rcast len delim fuel rest result i

/-- `cast_record` (pginternal.c lines 682-838).  Returns the parsed
fields in order (the C code converts the list to a tuple at the end) or
the `ValueError` message the C code sets.  `len = 0` models "no expected
record size given". -/
def castRecord (cfg : Config) (input : List Char) (types : Option (List Nat))
    (rcast : RecCast) (len : Nat) (delim0 : Char) :
    Except String (List PValue) :=
  if delim0 ≠ Char.ofNat 0 ∧ (delim0 = '(' ∨ delim0 = ')' ∨ delim0 = '\\') then
    .error "Invalid record delimiter"
  else
    let delim := if delim0 = Char.ofNat 0 then ',' else delim0
    let s0 := skipSp input
    match s0 with
    | '(' :: _ =>
      match rLoop cfg types rcast len delim (s0.length + 1) s0 [] 0 with
      | .err e => .error e
      | .fuelOut => .error "Fuel exhausted"
      | .brk result i rest =>
        match rest with
        | ')' :: rest2 =>
          if skipSp rest2 ≠ [] then
            .error "Unexpected characters after end of record"
          else if len ≠ 0 ∧ i < len then .error "Too few columns"
          else .ok result
        | _ => .error "Unexpected end of record"
    | _ => .error "Record must start with a left parenthesis"

/-! ## The hstore parser `cast_hstore` (pginternal.c lines 842-996). -/

/-- The shared key/value scan of `cast_hstore`: walk until one of the
stop characters, a backslash consuming the following character and
counting one escape.  Returns the raw span, the escape count and the
rest of the input. -/
def scanH (stops : List Char) : List Char → List Char × Nat × List Char
  | [] => ([], 0, [])
  | c :: rest =>
    if c ∈ stops then ([], 0, c :: rest)
    else if c = '\\' then
      match rest with
      | [] => (['\\'], 0, [])
      | c2 :: rest2 =>
        let (r, e, t) := scanH stops rest2
        ('\\' :: c2 :: r, e + 1, t)
    else
      let (r, e, t) := scanH stops rest
      (c :: r, e, t)

/-- The unescape loops of `cast_hstore` (pginternal.c lines 898-903 and
960-965): drop each backslash, keeping the following character. -/
def unescH : List Char → List Char
  | [] => []
  | c :: rest =>
    if c = '\\' then
      match rest with
      | [] => []
      | c2 :: rest2 => c2 :: unescH rest2
    else c :: unescH rest

/-- Outcome of the `cast_hstore` loop.  The dictionary is modelled as an
association list in insertion order with `PyDict_SetItem` semantics. -/
inductive HOut where
  | done (m : List (List Char × PValue))
  | err (msg : String)
  | fuelOut
  deriving Repr

/-- `PyDict_SetItem`: replace the value of an existing key in place, or
append a new entry. -/
def setItem (m : List (List Char × PValue)) (k : List Char) (v : PValue) :
    List (List Char × PValue) :=
  match m with
  | [] => [(k, v)]
  | (k0, v0) :: rest =>
    if k0 = k then (k, v) :: rest else (k0, v0) :: setItem rest k v

/-- The main loop of `cast_hstore` (pginternal.c lines 851-994).  The
tail of each iteration (lines 976-993: after the value, require either
the end of the input or a comma followed by more content, then
`PyDict_SetItem` and iterate) appears once per value shape. -/
def hLoop (cfg : Config) : Nat → List Char → List (List Char × PValue) → HOut
  | 0, _, _ => .fuelOut
  | _ + 1, [], m => .done m
  | fuel + 1, s@(_ :: _), m =>
    match skipSp s with
    | [] => .done m
    | c :: s1 =>
      let kq := c = '"'
      let kscan := if kq then
                     match scanH ['"'] s1 with
                     | (_, _, []) => Option.none
                     | (raw, esc, rest) => some (raw, esc, rest)
                   else some (scanH ['=', ' '] (c :: s1))
      match kscan with
      | Option.none => .err "Unterminated quote"
      | some (kraw, kesc, krest) =>
        if ¬ kq ∧ kraw = [] then .err "Missing key"
        else
          let kc := if kesc ≠ 0 then unescH kraw else kraw
          let s2 := if kq then tl krest else krest
          match skipSp s2 with
          | '=' :: '>' :: s4 =>
            let s5 := skipSp s4
            let vq := peekC s5 = '"'
            if vq then
              match scanH ['"'] (tl s5) with
              | (_, _, []) => .err "Unterminated quote"
              | (vraw, vesc, vrest) =>
                let v := PValue.text (if vesc ≠ 0 then unescH vraw else vraw)
                match skipSp (tl vrest) with
                | [] => hLoop cfg fuel [] (setItem m kc v)
                | ',' :: s8 =>
                  match skipSp s8 with
                  | [] => .err "Missing entry"
                  | s9@(_ :: _) => hLoop cfg fuel s9 (setItem m kc v)
                | _ :: _ => .err "Invalid characters after val"
            else
              match scanH [',', ' '] s5 with
              | (vraw, vesc, vrest) =>
                if vraw = [] then .err "Missing value"
                else
                  let v := if strIsNull vraw then PValue.none
                           else PValue.text (if vesc ≠ 0 then unescH vraw else vraw)
                  match skipSp vrest with
                  | [] => hLoop cfg fuel [] (setItem m kc v)
                  | ',' :: s8 =>
                    match skipSp s8 with
                    | [] => .err "Missing entry"
                    | s9@(_ :: _) => hLoop cfg fuel s9 (setItem m kc v)
                  | _ :: _ => .err "Invalid characters after val"
          | _ => .err "Invalid characters after key"

/-- `cast_hstore` (pginternal.c lines 842-996). -/
def castHstore (cfg : Config) (input : List Char) :
    Except String (List (List Char × PValue)) :=
  match hLoop cfg (input.length + 1) input [] with
  | .done m => .ok m
  | .err e => .error e
  | .fuelOut => .error "Fuel exhausted"

/-! ## C2: the type classifier is total; unrecognized oids map to Other. -/

/-- C2: `get_type` is a total Lean function (it never fails by
construction: its codomain is `Nat`, there is no error case), and every
oid outside the recognized set (the `case` labels of its `switch`) is
mapped to the tag `PYGRES_OTHER`, for every configuration. -/
theorem get_type_total_other (cfg : Config) (oid : Nat)
    (h : oid ∉ recognizedOids) : get_type cfg oid = PYGRES_OTHER := by
  simp only [recognizedOids, List.mem_cons, List.not_mem_nil, or_false,
    not_or] at h
  obtain ⟨h1, h2, h3, h4, h5, h6, h7, h8, h9, h10, h11, h12, h13, h14, h15,
    h16, h17, h18, h19, h20, h21, h22, h23, h24, h25, h26, h27, h28, h29, h30,
    h31, h32, h33, h34, h35, h36, h37, h38, h39, h40⟩ := h
  simp only [get_type, h1, h2, h3, h4, h5, h6, h7, h8, h9, h10, h11, h12, h13,
    h14, h15, h16, h17, h18, h19, h20, h21, h22, h23, h24, h25, h26, h27, h28,
    h29, h30, h31, h32, h33, h34, h35, h36, h37, h38, h39, h40, or_self,
    false_or, or_false, if_false, ite_false]

/-- Witness for C2 at the concrete unrecognized oid 12345. -/
theorem get_type_total_other_witness :
    (12345 : Nat) ∉ recognizedOids ∧
      get_type ⟨true, some '.', false, false, false, false⟩ 12345 = PYGRES_OTHER :=
  ⟨by decide, get_type_total_other _ 12345 (by decide)⟩

/-! ## C3: classification of array oids and the text fallbacks. -/

/-- C3: every recognized array oid classifies as its element oid's tag
with the `PYGRES_ARRAY` flag set, unless arrays are configured to be
returned as text, in which case it classifies as plain `PYGRES_TEXT`;
moreover bytea classifies as text when `bytea_escaped` is set, JSON when
no JSON decoder is configured, and money when no decimal point is
configured. -/
theorem get_type_array_flag (cfg : Config) (oid : Nat) (h : oid ∈ arrayOids) :
    (get_type cfg oid =
      if cfg.array_as_text then PYGRES_TEXT
      else get_type cfg (elemOid oid) ||| PYGRES_ARRAY) ∧
    (cfg.bytea_escaped = true → get_type cfg BYTEAOID = PYGRES_TEXT) ∧
    (cfg.jsondecode = false →
      get_type cfg JSONOID = PYGRES_TEXT ∧ get_type cfg JSONBOID = PYGRES_TEXT) ∧
    (cfg.decimal_point = Option.none → get_type cfg CASHOID = PYGRES_TEXT) := by
  refine ⟨?_, ?_, ?_, ?_⟩
  · fin_cases h <;>
      simp [get_type, elemOid, INT2OID, INT4OID, CIDOID, OIDOID, XIDOID,
        INT8OID, FLOAT4OID, FLOAT8OID, NUMERICOID, CASHOID, BOOLOID, BYTEAOID,
        JSONOID, JSONBOID, BPCHAROID, CHAROID, TEXTOID, VARCHAROID, NAMEOID,
        REGTYPEOID, INT2ARRAYOID, INT4ARRAYOID, CIDARRAYOID, OIDARRAYOID,
        XIDARRAYOID, INT8ARRAYOID, FLOAT4ARRAYOID, FLOAT8ARRAYOID,
        NUMERICARRAYOID, MONEYARRAYOID, BOOLARRAYOID, BYTEAARRAYOID,
        JSONARRAYOID, JSONBARRAYOID, BPCHARARRAYOID, CHARARRAYOID,
        TEXTARRAYOID, VARCHARARRAYOID, NAMEARRAYOID, REGTYPEARRAYOID]
  · intro hb
    simp [get_type, hb, BYTEAOID, INT2OID, INT4OID, CIDOID, OIDOID, XIDOID,
      INT8OID, FLOAT4OID, FLOAT8OID, NUMERICOID, CASHOID, BOOLOID]
  · intro hj
    constructor <;>
      simp [get_type, hj, JSONOID, JSONBOID, INT2OID, INT4OID, CIDOID, OIDOID,
        XIDOID, INT8OID, FLOAT4OID, FLOAT8OID, NUMERICOID, CASHOID, BOOLOID,
        BYTEAOID]
  · intro hm
    simp [get_type, hm, CASHOID, INT2OID, INT4OID, CIDOID, OIDOID, XIDOID,
      INT8OID, FLOAT4OID, FLOAT8OID, NUMERICOID]

/-- Witness for C3 at the int2 array oid with a fully unset
configuration. -/
theorem get_type_array_flag_witness :
    INT2ARRAYOID ∈ arrayOids ∧
      (get_type ⟨false, Option.none, false, false, false, false⟩ INT2ARRAYOID =
        if (false : Bool) then PYGRES_TEXT
        else get_type ⟨false, Option.none, false, false, false, false⟩
          (elemOid INT2ARRAYOID) ||| PYGRES_ARRAY) :=
  ⟨by decide,
    (get_type_array_flag ⟨false, Option.none, false, false, false, false⟩
      INT2ARRAYOID (by decide)).1⟩

/-! ## C9: the fixed 64-byte buffer truncates Int, Long and Money input. -/

/-- The bounded money loop produces exactly the first `n - j` characters
of the unbounded normalization. -/
theorem moneyLoop_take (cfg : Config) (n : Nat) :
    ∀ (s : List Char) (j : Nat), j ≤ n →
      moneyLoop cfg n j s = (moneyNormAll cfg s).take (n - j) := by
  intro s
  induction s with
  | nil => intro j _; simp [moneyLoop, moneyNormAll]
  | cons c rest ih =>
    intro j hj
    by_cases hjn : j < n
    · have hsub : n - j = (n - (j + 1)) + 1 := by omega
      by_cases hd : isDig c
      · simp [moneyLoop, moneyNormAll, hjn, hd, hsub, ih (j + 1) hjn]
      · by_cases hp : cfg.decimal_point = some c
        · simp [moneyLoop, moneyNormAll, hjn, hd, hp, hsub, ih (j + 1) hjn]
        · by_cases hm : c = '(' ∨ c = '-'
          · simp [moneyLoop, moneyNormAll, hjn, hd, hp, hm, hsub, ih (j + 1) hjn]
          · simp [moneyLoop, moneyNormAll, hjn, hd, hp, hm, ih j hj]
    · have hj' : j = n := by omega
      have hz : n - j = 0 := by omega
      simp [moneyLoop, hjn, hz]

/-- C9: `cast_sized_simple` copies Int and Long input through the fixed
64-byte buffer, so only the first 63 bytes are parsed (any longer input
behaves exactly like its 63-byte prefix, the remainder silently
ignored); the Money branch stops after 63 normalized characters, i.e.
produces the first 63 characters of the full normalization. -/
theorem castSizedSimple_buffer_truncation (cfg : Config) (s : List Char) :
    castSizedSimple cfg s PYGRES_INT =
      castSizedSimple cfg (s.take 63) PYGRES_INT ∧
    castSizedSimple cfg s PYGRES_LONG =
      castSizedSimple cfg (s.take 63) PYGRES_LONG ∧
    castSizedSimple cfg s PYGRES_MONEY =
      .ok (if cfg.decimal then .decimalStr ((moneyNormAll cfg s).take 63)
           else .floatStr ((moneyNormAll cfg s).take 63)) := by
  refine ⟨?_, ?_, ?_⟩
  · simp [castSizedSimple, List.take_take]
  · simp [castSizedSimple, PYGRES_LONG, PYGRES_INT, List.take_take]
  · have hm := moneyLoop_take cfg 63 s 0 (by omega)
    simp only [Nat.sub_zero] at hm
    simp [castSizedSimple, PYGRES_MONEY, PYGRES_INT, PYGRES_LONG,
      PYGRES_FLOAT, hm]

/-! ## C8: array delimiter validation. -/

/-- The error messages `parseInt10` can produce. -/
theorem parseInt10_err (s : List Char) (e : String)
    (h : parseInt10 s = .error e) : e = "invalid literal for int with base 10" := by
  simp only [parseInt10] at h
  split_ifs at h with h1
  exact (Except.error.injEq _ _).mp h.symm

/-- Mapping over an `Except` preserves the error. -/
theorem exceptMap_err {f : Int → PValue} {x : Except String Int} {e : String}
    (h : x.map f = .error e) : x = .error e := by
  cases x <;> simp_all [Except.map]

/-- With the internal cast path, an element-cast error is always the
integer-parse error. -/
theorem castElem_err (cfg : Config) (typ : Nat) (content : List Char)
    (e : String) (h : castElem cfg typ Option.none content = .error e) :
    e = "invalid literal for int with base 10" := by
  unfold castElem at h
  split_ifs at h with h1 h2
  · unfold castSizedText at h
    split_ifs at h <;> simp_all
  · unfold castSizedSimple at h
    split_ifs at h <;>
      first
        | exact parseInt10_err _ _ (exceptMap_err h)
        | simp_all

/-- A sample configuration used by concrete witnesses: decimal
constructor set, decimal point dot, everything else unset. -/
def sampleConfig : Config := ⟨true, some '.', false, false, false, false⟩

set_option maxHeartbeats 1600000 in
/-- With internal casting, the main array loop never produces the
delimiter-validation error message. -/
theorem aLoop_ne_delim (cfg : Config) (typ : Nat) (delim : Char) (depth : Nat) :
    ∀ (fuel : Nat) (s : List Char) (stack : List (List PValue))
      (result : List PValue) (level : Nat) (e : String),
      aLoop cfg typ Option.none delim depth fuel s stack result level = .err e →
      e ≠ "Invalid array delimiter" := by
  intro fuel
  induction fuel with
  | zero =>
    intro s stack result level e h
    simp [aLoop] at h
  | succ n ih =>
    intro s stack result level e h
    match s with
    | [] => simp [aLoop] at h
    | c :: s' =>
      unfold aLoop at h
      repeat'
        first
          | exact ih _ _ _ _ _ h
          | split at h
          | split_ifs at h
          | simp only [] at h
          | (injection h with h' <;>
              first
                | (rw [← h']; decide)
                | (rw [← h', castElem_err _ _ _ _ (by assumption)]; decide))
          | injection h
          | (rename_i e2 heq2 meq; rw [← meq, castElem_err _ _ _ _ heq2]; decide)
          | (rename_i meq; rw [← meq]; decide)

/-! ## C8: array delimiter validation. -/

/-- C8: calling `cast_array` with a left brace, right brace or backslash
delimiter fails with the `ValueError` "Invalid array delimiter" for every
input (in particular before examining any of it); a zero delimiter
behaves exactly like a comma; and with any other delimiter (under
internal casting) the result is never the delimiter-validation error. -/
theorem castArray_delimiter_validation (cfg : Config) (typ : Nat)
    (s : List Char) :
    (∀ ecast d, d = '{' ∨ d = '}' ∨ d = '\\' →
      castArray cfg s typ ecast d = .error "Invalid array delimiter") ∧
    (∀ ecast, castArray cfg s typ ecast (Char.ofNat 0) =
      castArray cfg s typ ecast ',') ∧
    (∀ d, ¬(d = '{' ∨ d = '}' ∨ d = '\\') →
      castArray cfg s typ Option.none d ≠ .error "Invalid array delimiter") := by
  refine ⟨?_, ?_, ?_⟩
  · rintro ecast d (rfl | rfl | rfl) <;>
      · simp only [castArray]
        rw [if_pos ⟨by decide, by decide⟩]
  · intro ecast
    rfl
  · intro d hd h
    have hne : ¬(d ≠ Char.ofNat 0 ∧ (d = '{' ∨ d = '}' ∨ d = '\\')) :=
      fun hc => hd hc.2
    simp only [castArray, if_neg hne] at h
    repeat'
      first
        | split at h
        | split_ifs at h
        | simp only [] at h
        | (injection h with h' <;> exact absurd h' (by decide))
        | (cases h; exact aLoop_ne_delim _ _ _ _ _ _ _ _ _ _ (by assumption) rfl)
        | injection h

/-! ## Well-formed array literals.

The spec's array grammar, restricted to what PostgreSQL (and this
parser) actually accepts: a uniformly nested array whose leaves all sit
at the same depth.  `RTree` is the shape, `uniformB d` the well-formedness
check at nesting depth `d`, `renderD` the canonical literal (unquoted
elements, comma delimiter, no optional blanks), `evalD` the expected
parse and `costD` the number of loop iterations the parser spends. -/

inductive RTree where
  | leaf (tok : List Char)
  | node (children : List RTree)

/-- A plain unquoted element token: nonempty, no quote, brace, comma,
backslash or blank characters. -/
def plainTokB (tok : List Char) : Bool :=
  !tok.isEmpty &&
    tok.all fun c =>
      !(c = '"' ∨ c = '{' ∨ c = '}' ∨ c = ',' ∨ c = '\\' ∨ c = ' ')

/-- Well-formedness of an array value at nesting depth `d`: leaves are
plain tokens at depth 0, nodes at depth `d + 1` hold values of depth `d`
and may be empty only at the innermost level (PostgreSQL likewise only
accepts an empty brace pair where elements are expected). -/
def uniformB : Nat → RTree → Bool
  | 0, .leaf tok => plainTokB tok
  | 0, .node _ => false
  | _ + 1, .leaf _ => false
  | d + 1, .node cs => (cs.all fun c => uniformB d c) && (!cs.isEmpty || d = 0)

/-- Canonical rendering of a well-formed array value of depth `d`. -/
def renderD : Nat → RTree → List Char
  | _, .leaf tok => tok
  | 0, .node _ => []
  | d + 1, .node cs =>
    '{' :: List.intercalate [','] (cs.map fun c => renderD d c) ++ ['}']

/-- The value `cast_array` produces for a rendered well-formed array
(with the `PYGRES_TEXT` base type). -/
def evalD : Nat → RTree → PValue
  | _, .leaf tok => if strIsNull tok then PValue.none else .text tok
  | 0, .node _ => .list []
  | d + 1, .node cs => .list (cs.map fun c => evalD d c)

/-- Number of main-loop iterations spent on one value: one per element,
plus the push and the pop iteration for each subarray. -/
def costD : Nat → RTree → Nat
  | _, .leaf _ => 1
  | 0, .node _ => 2
  | d + 1, .node cs => 2 + ((cs.map fun c => costD d c).sum)

/-- The sibling row of a rendered node: the children's renderings joined
by the comma delimiter. -/
def renderRow (k : Nat) (cs : List RTree) : List Char :=
  List.intercalate [','] (cs.map fun c => renderD k c)

theorem renderD_node (d : Nat) (cs : List RTree) :
    renderD (d + 1) (.node cs) = '{' :: renderRow d cs ++ ['}'] := rfl

theorem renderRow_nil (k : Nat) : renderRow k [] = [] := by
  simp [renderRow, List.intercalate]

theorem renderRow_single (k : Nat) (c : RTree) :
    renderRow k [c] = renderD k c := by
  simp [renderRow, List.intercalate]

theorem renderRow_cons (k : Nat) (c : RTree) (cs : List RTree) (h : cs ≠ []) :
    renderRow k (c :: cs) = renderD k c ++ ',' :: renderRow k cs := by
  cases cs with
  | nil => exact absurd rfl h
  | cons b t => simp [renderRow, List.intercalate, List.intersperse]

theorem skipSp_no_space (s : List Char) (h : peekC s ≠ ' ') : skipSp s = s := by
  cases s with
  | nil => rfl
  | cons c t =>
    simp only [peekC] at h
    unfold skipSp
    split
    · rename_i heq
      cases heq
      exact absurd rfl h
    · rfl

theorem plainTokB_facts (tok : List Char) (h : plainTokB tok = true) :
    tok ≠ [] ∧ ∀ c ∈ tok,
      ¬c = '"' ∧ ¬c = '{' ∧ ¬c = '}' ∧ ¬c = ',' ∧ ¬c = '\\' ∧ ¬c = ' ' := by
  simp only [plainTokB, Bool.and_eq_true, List.all_eq_true, decide_eq_true_eq,
    Bool.not_eq_true', decide_eq_false_iff_not, not_or] at h
  obtain ⟨h1, h2⟩ := h
  refine ⟨?_, h2⟩
  intro he
  rw [he] at h1
  simp at h1

theorem scanUnq_plain (tok rest : List Char) (h : plainTokB tok = true)
    (hrest : peekC rest = '}' ∨ peekC rest = ',') (hne : rest ≠ []) :
    scanUnq ',' (tok ++ rest) = (tok, rest) := by
  have hf := (plainTokB_facts tok h).2
  clear h
  induction tok with
  | nil =>
    cases rest with
    | nil => exact absurd rfl hne
    | cons r rs =>
      simp only [peekC] at hrest
      unfold scanUnq
      rcases hrest with h | h <;> simp [h]
  | cons c tok' ih =>
    have hc := hf c (by simp)
    have hf' : ∀ x ∈ tok', ¬x = '"' ∧ ¬x = '{' ∧ ¬x = '}' ∧ ¬x = ',' ∧
        ¬x = '\\' ∧ ¬x = ' ' := fun x hx => hf x (by simp [hx])
    unfold scanUnq
    simp only [List.cons_append]
    rw [if_neg (by tauto), if_neg (by tauto)]
    rw [ih hf']

theorem trimR_no_space (tok : List Char) (h : ∀ c ∈ tok, ¬c = ' ') :
    trimR tok = tok := by
  unfold trimR
  have : tok.reverse.dropWhile (· = ' ') = tok.reverse := by
    cases hr : tok.reverse with
    | nil => rfl
    | cons c t =>
      have hc : c ∈ tok := by
        rw [← List.mem_reverse, hr]
        simp
      rw [List.dropWhile_cons_of_neg]
      simp [h c hc]
  rw [this, List.reverse_reverse]

theorem plain_no_bs (tok : List Char) (h : plainTokB tok = true) :
    (tok.any fun c => decide (c = '\\')) = false := by
  have hf := (plainTokB_facts tok h).2
  simp only [List.any_eq_false, decide_eq_true_eq]
  intro c hc
  exact (hf c hc).2.2.2.2.1

/-- `cast_sized_text` on the plain text tag returns the decoded text. -/
theorem castElem_text (cfg : Config) (content : List Char) :
    castElem cfg PYGRES_TEXT Option.none content = .ok (.text content) := rfl

theorem uniformB_zero (c : RTree) (h : uniformB 0 c = true) :
    ∃ tok, c = .leaf tok ∧ plainTokB tok = true := by
  cases c with
  | leaf tok => exact ⟨tok, rfl, h⟩
  | node cs => simp [uniformB] at h

theorem uniformB_succ (k : Nat) (c : RTree) (h : uniformB (k + 1) c = true) :
    ∃ cs, c = .node cs ∧ (∀ x ∈ cs, uniformB k x = true) ∧ (cs ≠ [] ∨ k = 0) := by
  cases c with
  | leaf tok => simp [uniformB] at h
  | node cs =>
    refine ⟨cs, rfl, ?_, ?_⟩
    · intro x hx
      simp only [uniformB, Bool.and_eq_true, List.all_eq_true] at h
      exact h.1 x hx
    · simp only [uniformB, Bool.and_eq_true, Bool.or_eq_true, Bool.not_eq_true',
        decide_eq_true_eq] at h
      rcases h.2 with h2 | h2
      · left
        intro he
        rw [he] at h2
        simp at h2
      · right
        exact h2

theorem renderD_node_shape (k : Nat) (cs : List RTree) (X : List Char) :
    renderD (k + 1) (.node cs) ++ X = '{' :: (renderRow k cs ++ '}' :: X) := by
  rw [renderD_node]
  simp

theorem renderD_head_not_space (k : Nat) (c : RTree) (h : uniformB k c = true)
    (X : List Char) : peekC (renderD k c ++ X) ≠ ' ' := by
  cases k with
  | zero =>
    obtain ⟨tok, rfl, hp⟩ := uniformB_zero c h
    obtain ⟨hne, hchars⟩ := plainTokB_facts tok hp
    cases tok with
    | nil => exact absurd rfl hne
    | cons c0 tok0 =>
      simp only [renderD, List.cons_append, peekC]
      exact (hchars c0 (by simp)).2.2.2.2.2
  | succ k =>
    obtain ⟨cs, rfl, _, _⟩ := uniformB_succ k c h
    rw [renderD_node_shape]
    simp [peekC]

theorem renderRow_head (k : Nat) (cs : List RTree)
    (hcs : ∀ c ∈ cs, uniformB k c = true) (X : List Char) (hX : peekC X ≠ ' ') :
    peekC (renderRow k cs ++ X) ≠ ' ' := by
  cases cs with
  | nil => rw [renderRow_nil]; simpa using hX
  | cons c cs' =>
    have hc := hcs c (by simp)
    cases cs' with
    | nil =>
      rw [renderRow_single]
      exact renderD_head_not_space k c hc X
    | cons b t =>
      rw [renderRow_cons _ _ _ (by simp), List.append_assoc]
      exact renderD_head_not_space k c hc _

theorem countBraces_brace (s : List Char) : countBraces ('{' :: s) = countBraces s + 1 := rfl

theorem countBraces_other (c : Char) (s : List Char) (h1 : ¬c = '{') (h2 : ¬c = ' ') :
    countBraces (c :: s) = 0 := by
  unfold countBraces
  split
  · rename_i heq
    cases heq
    exact absurd rfl h1
  · rename_i heq
    cases heq
    exact absurd rfl h2
  · rfl

theorem uniformB_leaf_depth (k : Nat) (tok : List Char)
    (h : uniformB k (.leaf tok) = true) : k = 0 := by
  cases k with
  | zero => rfl
  | succ k => simp [uniformB] at h

def topBraces : RTree → Nat → Nat
  | .leaf _, _ => 0
  | .node _, k => k

theorem countBraces_render (k : Nat) :
    ∀ (c : RTree), uniformB k c = true → ∀ X,
      countBraces (renderD k c ++ X) = topBraces c k := by
  induction k with
  | zero =>
    intro c h X
    obtain ⟨tok, rfl, hp⟩ := uniformB_zero c h
    obtain ⟨hne, hchars⟩ := plainTokB_facts tok hp
    cases tok with
    | nil => exact absurd rfl hne
    | cons c0 tok0 =>
      simp only [renderD, List.cons_append, topBraces]
      exact countBraces_other c0 _ (hchars c0 (by simp)).2.1
        (hchars c0 (by simp)).2.2.2.2.2
  | succ k ih =>
    intro c h X
    obtain ⟨cs, rfl, hall, hz⟩ := uniformB_succ k c h
    rw [renderD_node_shape, countBraces_brace]
    simp only [topBraces]
    cases cs with
    | nil =>
      rw [renderRow_nil, List.nil_append,
        countBraces_other '}' X (by decide) (by decide)]
      have hk : k = 0 := by tauto
      omega
    | cons c1 cs' =>
      have h1 : uniformB k c1 = true := hall c1 (by simp)
      have hstep : countBraces (renderRow k (c1 :: cs') ++ '}' :: X) =
          topBraces c1 k := by
        cases cs' with
        | nil =>
          rw [renderRow_single]
          exact ih c1 h1 _
        | cons c2 t =>
          rw [renderRow_cons _ _ _ (by simp), List.append_assoc]
          exact ih c1 h1 _
      rw [hstep]
      cases c1 with
      | leaf tok =>
        have := uniformB_leaf_depth k tok h1
        simp [topBraces]
        omega
      | node cs2 => rfl

theorem costD_le (k : Nat) :
    ∀ c, uniformB k c = true → costD k c ≤ (renderD k c).length := by
  induction k with
  | zero =>
    intro c h
    obtain ⟨tok, rfl, hp⟩ := uniformB_zero c h
    obtain ⟨hne, _⟩ := plainTokB_facts tok hp
    have := List.length_pos.mpr hne
    simpa [costD, renderD] using this
  | succ k ih =>
    intro c h
    obtain ⟨cs, rfl, hall, _⟩ := uniformB_succ k c h
    have hrow : ∀ (l : List RTree), (∀ x ∈ l, uniformB k x = true) →
        ((l.map fun x => costD k x).sum) ≤ (renderRow k l).length := by
      intro l
      induction l with
      | nil => intro _; simp [renderRow_nil]
      | cons a t iht =>
        intro hl
        have ha := ih a (hl a (by simp))
        cases t with
        | nil => simpa [renderRow_single] using ha
        | cons b t' =>
          rw [renderRow_cons _ _ _ (by simp)]
          have ht := iht (fun x hx => hl x (by simp [hx]))
          simp only [List.map_cons, List.sum_cons, List.length_append,
            List.length_cons] at ht ⊢
          omega
    have h2 := hrow cs hall
    rw [renderD_node]
    simp only [costD, List.length_cons, List.length_append, List.length_singleton]
    omega

/-- The cost of a sibling row is bounded by its rendered length. -/
theorem costRow_le (k : Nat) (l : List RTree)
    (hl : ∀ x ∈ l, uniformB k x = true) :
    ((l.map fun x => costD k x).sum) ≤ (renderRow k l).length := by
  induction l with
  | nil => simp [renderRow_nil]
  | cons a t iht =>
    have ha := costD_le k a (hl a (by simp))
    cases t with
    | nil => simpa [renderRow_single] using ha
    | cons b t' =>
      rw [renderRow_cons _ _ _ (by simp)]
      have ht := iht (fun x hx => hl x (by simp [hx]))
      simp only [List.map_cons, List.sum_cons, List.length_append,
        List.length_cons] at ht ⊢
      omega

/-- One main-loop iteration at a subarray opening: push the current list
and descend one level (pginternal.c lines 650-660). -/
theorem aLoop_push (cfg : Config) (D f l : Nat) (S : List Char)
    (stack : List (List PValue)) (result : List PValue)
    (hl : ¬l = D) (hS : peekC S ≠ ' ') (hSne : S ≠ []) :
    aLoop cfg PYGRES_TEXT Option.none ',' D (f + 1) ('{' :: S) stack result l =
      aLoop cfg PYGRES_TEXT Option.none ',' D f S (result :: stack) [] (l + 1) := by
  cases S with
  | nil => exact absurd rfl hSne
  | cons c1 s2 =>
    conv_lhs => unfold aLoop
    rw [if_neg (by decide : ¬('{' : Char) = '}'), if_neg hl,
      if_neg (by simp : ¬('{' : Char) ≠ '{'), skipSp_no_space _ hS]

/-- One main-loop iteration at a subarray close followed by the parent's
close: pop and append the sublist (pginternal.c lines 530-550). -/
theorem aLoop_pop_close (cfg : Config) (D f l : Nat) (X : List Char)
    (top : List PValue) (stack : List (List PValue)) (inner : List PValue) :
    aLoop cfg PYGRES_TEXT Option.none ',' D (f + 1) ('}' :: '}' :: X)
        (top :: stack) inner (l + 1) =
      aLoop cfg PYGRES_TEXT Option.none ',' D f ('}' :: X) stack
        (top ++ [.list inner]) l := by
  conv_lhs => unfold aLoop
  rw [if_pos rfl, if_neg (by omega : ¬l + 1 = 0),
    skipSp_no_space ('}' :: X) (by decide : ('}' : Char) ≠ ' ')]
  simp +decide only [reduceIte, Nat.add_sub_cancel]

/-- One main-loop iteration at a subarray close followed by the
delimiter and a sibling subarray: pop, append and continue at the
sibling's opening brace (pginternal.c lines 530-550). -/
theorem aLoop_pop_delim (cfg : Config) (D f l : Nat) (s4 : List Char)
    (top : List PValue) (stack : List (List PValue)) (inner : List PValue) :
    aLoop cfg PYGRES_TEXT Option.none ',' D (f + 1) ('}' :: ',' :: '{' :: s4)
        (top :: stack) inner (l + 1) =
      aLoop cfg PYGRES_TEXT Option.none ',' D f ('{' :: s4) stack
        (top ++ [.list inner]) l := by
  conv_lhs => unfold aLoop
  rw [if_pos rfl, if_neg (by omega : ¬l + 1 = 0),
    skipSp_no_space (',' :: '{' :: s4) (by decide : (',' : Char) ≠ ' ')]
  simp +decide only [reduceIte]
  rw [skipSp_no_space ('{' :: s4) (by decide : ('{' : Char) ≠ ' ')]
  simp +decide only [reduceIte, Nat.add_sub_cancel]

/-- One main-loop iteration on an unquoted element that is the last of
its row: parse and append the element, stopping at the closing brace
(pginternal.c lines 552-648). -/
theorem aLoop_leaf_close (cfg : Config) (D f : Nat) (tok X : List Char)
    (stack : List (List PValue)) (result : List PValue)
    (hp : plainTokB tok = true) :
    aLoop cfg PYGRES_TEXT Option.none ',' D (f + 1) (tok ++ '}' :: X) stack
        result D =
      aLoop cfg PYGRES_TEXT Option.none ',' D f ('}' :: X) stack
        (result ++ [evalD 0 (.leaf tok)]) D := by
  obtain ⟨hne, hchars⟩ := plainTokB_facts tok hp
  cases htok : tok with
  | nil => exact absurd htok hne
  | cons c0 tok0 =>
    subst htok
    have hc0 := hchars c0 (by simp)
    have hscan := scanUnq_plain (c0 :: tok0) ('}' :: X) hp (Or.inl rfl) (by simp)
    have htrim := trimR_no_space (c0 :: tok0) (fun c hc => (hchars c hc).2.2.2.2.2)
    simp only [List.cons_append]
    conv_lhs => unfold aLoop
    rw [if_neg hc0.2.2.1, if_pos rfl, if_neg hc0.2.1, if_neg hc0.1]
    rw [show ((c0 :: tok0) ++ '}' :: X : List Char) = c0 :: (tok0 ++ '}' :: X)
      from rfl] at hscan
    rw [hscan]
    simp only []
    rw [htrim]
    rw [if_neg (by simp : ¬(c0 :: tok0 : List Char).length = 0)]
    rw [List.take_length]
    by_cases hnull : strIsNull (c0 :: tok0) = true
    · rw [if_pos hnull]
      simp +decide only [reduceIte, evalD, hnull]
    · rw [if_neg hnull]
      rw [plain_no_bs _ hp]
      simp +decide only [reduceIte, evalD, hnull, castElem_text, List.take_length]

/-- One main-loop iteration on an unquoted element followed by the
delimiter and more row content: parse and append the element and
continue after the delimiter (pginternal.c lines 552-648). -/
theorem aLoop_leaf_delim (cfg : Config) (D f : Nat) (tok Y : List Char)
    (stack : List (List PValue)) (result : List PValue)
    (hp : plainTokB tok = true) (hY : peekC Y ≠ ' ') (hYne : Y ≠ []) :
    aLoop cfg PYGRES_TEXT Option.none ',' D (f + 1) (tok ++ ',' :: Y) stack
        result D =
      aLoop cfg PYGRES_TEXT Option.none ',' D f Y stack
        (result ++ [evalD 0 (.leaf tok)]) D := by
  obtain ⟨hne, hchars⟩ := plainTokB_facts tok hp
  cases hYc : Y with
  | nil => exact absurd hYc hYne
  | cons cY sY =>
  subst hYc
  cases htok : tok with
  | nil => exact absurd htok hne
  | cons c0 tok0 =>
    subst htok
    have hc0 := hchars c0 (by simp)
    have hscan := scanUnq_plain (c0 :: tok0) (',' :: cY :: sY) hp (Or.inr rfl)
      (by simp)
    have htrim := trimR_no_space (c0 :: tok0) (fun c hc => (hchars c hc).2.2.2.2.2)
    simp only [List.cons_append]
    conv_lhs => unfold aLoop
    rw [if_neg hc0.2.2.1, if_pos rfl, if_neg hc0.2.1, if_neg hc0.1]
    rw [show ((c0 :: tok0) ++ ',' :: cY :: sY : List Char) =
      c0 :: (tok0 ++ ',' :: cY :: sY) from rfl] at hscan
    rw [hscan]
    simp only []
    rw [htrim]
    rw [if_neg (by simp : ¬(c0 :: tok0 : List Char).length = 0)]
    rw [List.take_length]
    by_cases hnull : strIsNull (c0 :: tok0) = true
    · rw [if_pos hnull]
      simp +decide only [reduceIte, evalD, hnull]
      rw [skipSp_no_space (cY :: sY) hY]
    · rw [if_neg hnull]
      rw [plain_no_bs _ hp]
      simp +decide only [reduceIte, evalD, hnull, castElem_text, List.take_length]
      rw [skipSp_no_space (cY :: sY) hY]

/-- The main loop consumes a whole well-formed sibling row: starting at
level `l` with the row's rendering followed by the enclosing close brace,
it appends every sibling's value to the current list and stops at the
close brace, spending exactly the row's cost in fuel. -/
theorem peekC_cons (c : Char) (s : List Char) : peekC (c :: s) = c := rfl

theorem aLoop_row (cfg : Config) (D : Nat) :
    ∀ (k : Nat) (cs : List RTree), (∀ c ∈ cs, uniformB k c = true) → cs ≠ [] →
      ∀ (l : Nat), l + k = D →
      ∀ (f : Nat) (stack : List (List PValue)) (result : List PValue)
        (rest : List Char),
        aLoop cfg PYGRES_TEXT Option.none ',' D
            (((cs.map fun c => costD k c).sum) + f)
            (renderRow k cs ++ '}' :: rest) stack result l =
          aLoop cfg PYGRES_TEXT Option.none ',' D f ('}' :: rest) stack
            (result ++ (cs.map fun c => evalD k c)) l := by
  intro k
  induction k using Nat.strong_induction_on with
  | _ k IHk =>
  intro cs
  induction cs with
  | nil =>
    intro _ hne
    exact absurd rfl hne
  | cons c cs' IHcs =>
  intro hall _ l hl f stack result rest
  cases k with
  | zero =>
    obtain ⟨tok, rfl, hp⟩ := uniformB_zero c (hall c (by simp))
    have hD : l = D := by omega
    subst hD
    cases cs' with
    | nil =>
      rw [renderRow_single]
      simp only [List.map_cons, List.map_nil, List.sum_cons, List.sum_nil, costD]
      rw [show 1 + 0 + f = f + 1 from by omega]
      rw [show (renderD 0 (.leaf tok) : List Char) = tok from rfl]
      rw [aLoop_leaf_close cfg l f tok rest stack result hp]
    | cons c2 t =>
      have hall' : ∀ x ∈ c2 :: t, uniformB 0 x = true :=
        fun x hx => hall x (by simp [hx])
      rw [renderRow_cons _ _ _ (by simp), List.append_assoc, List.cons_append]
      simp only [List.map_cons, List.sum_cons, costD]
      rw [show (renderD 0 (.leaf tok) : List Char) = tok from rfl]
      rw [show 1 + (costD 0 c2 + (t.map fun c => costD 0 c).sum) + f =
        ((costD 0 c2 + (t.map fun c => costD 0 c).sum) + f) + 1 from by omega]
      rw [aLoop_leaf_delim cfg l _ tok _ stack result hp
        (renderRow_head 0 (c2 :: t) hall' ('}' :: rest)
          (by rw [peekC_cons]; decide)) (by simp)]
      have hIH := IHcs hall' (by simp) l (by omega) f stack
        (result ++ [evalD 0 (.leaf tok)]) rest
      simp only [List.map_cons, List.sum_cons] at hIH
      rw [hIH]
      simp
  | succ k2 =>
    obtain ⟨cs2, rfl, hall2, hz⟩ := uniformB_succ k2 c (hall c (by simp))
    have hlD : ¬ l = D := by omega
    have hchild : ∀ (X' : List Char) (g : Nat),
        aLoop cfg PYGRES_TEXT Option.none ',' D
            ((cs2.map fun x => costD k2 x).sum + g)
            (renderRow k2 cs2 ++ '}' :: X') (result :: stack) [] (l + 1) =
          aLoop cfg PYGRES_TEXT Option.none ',' D g ('}' :: X')
            (result :: stack) (cs2.map fun x => evalD k2 x) (l + 1) := by
      intro X' g
      cases hc2 : cs2 with
      | nil => simp [renderRow_nil]
      | cons a b =>
        subst hc2
        simpa using IHk k2 (by omega) (a :: b) hall2 (by simp) (l + 1)
          (by omega) g (result :: stack) [] X'
    cases cs' with
    | nil =>
      rw [renderRow_single, renderD_node_shape]
      simp only [List.map_cons, List.map_nil, List.sum_cons, List.sum_nil, costD]
      rw [show 2 + (cs2.map fun x => costD k2 x).sum + 0 + f =
        ((cs2.map fun x => costD k2 x).sum + (f + 1)) + 1 from by omega]
      rw [aLoop_push cfg D _ l _ stack result hlD
        (renderRow_head k2 cs2 hall2 ('}' :: '}' :: rest)
          (by rw [peekC_cons]; decide)) (by simp)]
      rw [hchild ('}' :: rest) (f + 1)]
      rw [aLoop_pop_close cfg D f l rest result stack _]
      simp [evalD]
    | cons c2 t =>
      have hall' : ∀ x ∈ c2 :: t, uniformB (k2 + 1) x = true :=
        fun x hx => hall x (by simp [hx])
      rw [renderRow_cons _ _ _ (by simp), List.append_assoc, List.cons_append]
      rw [renderD_node_shape]
      simp only [List.map_cons, List.sum_cons, costD]
      rw [show 2 + (cs2.map fun x => costD k2 x).sum +
          (costD (k2 + 1) c2 + (t.map fun x => costD (k2 + 1) x).sum) + f =
        ((cs2.map fun x => costD k2 x).sum +
          ((costD (k2 + 1) c2 + (t.map fun x => costD (k2 + 1) x).sum + f) + 1)) + 1
        from by omega]
      rw [aLoop_push cfg D _ l _ stack result hlD
        (renderRow_head k2 cs2 hall2 _ (by rw [peekC_cons]; decide)) (by simp)]
      rw [hchild _ _]
      obtain ⟨cs3, hc2eq, _, _⟩ := uniformB_succ k2 c2 (hall' c2 (by simp))
      have hs4 : ∃ s4, renderRow (k2 + 1) (c2 :: t) ++ '}' :: rest = '{' :: s4 := by
        cases t with
        | nil =>
          rw [renderRow_single, hc2eq, renderD_node_shape]
          exact ⟨_, rfl⟩
        | cons d u =>
          rw [renderRow_cons _ _ _ (by simp), hc2eq, List.append_assoc,
            renderD_node_shape]
          exact ⟨_, rfl⟩
      obtain ⟨s4, hs4⟩ := hs4
      rw [hs4]
      rw [aLoop_pop_delim cfg D _ l s4 result stack _]
      rw [← hs4]
      have hIH := IHcs hall' (by simp) l (by omega) f stack
        (result ++ [PValue.list (cs2.map fun x => evalD k2 x)]) rest
      simp only [List.map_cons, List.sum_cons] at hIH
      rw [hIH]
      simp [evalD]

/-- The loop's exit at the top level: a close brace at level 0 breaks. -/
theorem aLoop_top_close (cfg : Config) (D f : Nat) (X : List Char)
    (stack : List (List PValue)) (result : List PValue) :
    aLoop cfg PYGRES_TEXT Option.none ',' D (f + 1) ('}' :: X) stack result 0 =
      .brk result ('}' :: X) := by
  conv_lhs => unfold aLoop
  rw [if_pos rfl, if_pos rfl]

/-- `cast_array` on the canonical rendering of a well-formed array of
nesting depth `d`: for `d` up to 16 it parses to the expected value, for
`d` of 17 or more it fails with the depth error. -/
theorem castArray_uniform (cfg : Config) (d : Nat) (cs : List RTree)
    (h : uniformB d (.node cs) = true) (h1 : 1 ≤ d) :
    (d ≤ 16 → castArray cfg (renderD d (.node cs)) PYGRES_TEXT Option.none ',' =
      .ok (cs.map fun c => evalD (d - 1) c)) ∧
    (17 ≤ d → castArray cfg (renderD d (.node cs)) PYGRES_TEXT Option.none ',' =
      .error "Array is too deeply nested") := by
  cases d with
  | zero => omega
  | succ d2 =>
  obtain ⟨cs2, heq, hall, hz⟩ := uniformB_succ d2 (.node cs) h
  cases heq
  have hcb : countBraces ('{' :: (renderRow d2 cs ++ ['}'])) = d2 + 1 := by
    have := countBraces_render (d2 + 1) (.node cs) h []
    rw [List.append_nil, renderD_node] at this
    simpa [topBraces] using this
  unfold castArray
  simp +decide only [reduceIte]
  rw [renderD_node]
  rw [show ('{' :: renderRow d2 cs ++ ['}'] : List Char) =
    '{' :: (renderRow d2 cs ++ ['}']) from rfl]
  rw [skipSp_no_space ('{' :: (renderRow d2 cs ++ ['}']))
    (by rw [peekC_cons]; decide)]
  rw [peekC_cons]
  simp +decide only [reduceIte]
  rw [hcb]
  simp +decide only [reduceIte, Nat.succ_ne_zero, false_and]
  constructor
  · intro hle
    rw [if_neg (by simp only [MAX_ARRAY_DEPTH]; omega : ¬d2 + 1 > MAX_ARRAY_DEPTH)]
    rw [show tl ('{' :: (renderRow d2 cs ++ ['}'])) = renderRow d2 cs ++ ['}']
      from rfl]
    simp only [Nat.add_sub_cancel]
    cases hc : cs with
    | nil =>
      rw [renderRow_nil]
      simp +decide only [List.nil_append, List.map_nil]
      rw [skipSp_no_space ['}'] (by rw [peekC_cons]; decide)]
      rw [show (['}'] : List Char).length + 1 = 1 + 1 from rfl]
      rw [aLoop_top_close]
      simp +decide only [reduceIte, skipSp]
    | cons a b =>
      rw [← hc]
      have hcne : cs ≠ [] := by rw [hc]; simp
      rw [skipSp_no_space (renderRow d2 cs ++ ['}'])
        (renderRow_head d2 cs hall ['}'] (by rw [peekC_cons]; decide))]
      have hcost := costRow_le d2 cs hall
      have harith : (renderRow d2 cs ++ ['}'] : List Char).length + 1 =
          ((cs.map fun c => costD d2 c).sum) +
            ((renderRow d2 cs).length + 2 - ((cs.map fun c => costD d2 c).sum)) := by
        simp only [List.length_append, List.length_singleton]
        omega
      rw [harith]
      rw [show (renderRow d2 cs ++ ['}'] : List Char) =
        renderRow d2 cs ++ '}' :: [] from rfl]
      rw [aLoop_row cfg d2 d2 cs hall hcne 0 (by omega) _ [] [] []]
      obtain ⟨g, hg⟩ : ∃ g, (renderRow d2 cs).length + 2 -
          ((cs.map fun c => costD d2 c).sum) = g + 1 :=
        ⟨(renderRow d2 cs).length + 1 - ((cs.map fun c => costD d2 c).sum),
          by omega⟩
      rw [hg, aLoop_top_close]
      simp +decide only [reduceIte, skipSp, List.nil_append]
  · intro hge
    rw [if_pos (by simp only [MAX_ARRAY_DEPTH]; omega : d2 + 1 > MAX_ARRAY_DEPTH)]

/-! ## C1: well-formed arrays parse up to depth 16; deeper input fails. -/

/-- The singleton array nested to depth `n` around the element 1, used in
the concrete witness (depth 17 renders as the spec's example literal). -/
def deepT : Nat → RTree
  | 0 => .leaf ['1']
  | n + 1 => .node [deepT n]

/-- C1: for every array literal of brace-nesting depth at most
`MAX_ARRAY_DEPTH` (16) whose content is otherwise well formed (a
uniformly nested array of plain unquoted tokens, rendered canonically),
`cast_array` succeeds and returns the parsed value; for every such
literal of depth 17 or more it fails with the `ValueError` "Array is too
deeply nested".  No partial result is possible: the `Except` error
carries no value. -/
theorem castArray_max_depth (cfg : Config) (d : Nat) (cs : List RTree)
    (h : uniformB d (.node cs) = true) (h1 : 1 ≤ d) :
    (d ≤ MAX_ARRAY_DEPTH →
      castArray cfg (renderD d (.node cs)) PYGRES_TEXT Option.none ',' =
        .ok (cs.map fun c => evalD (d - 1) c)) ∧
    (MAX_ARRAY_DEPTH + 1 ≤ d →
      castArray cfg (renderD d (.node cs)) PYGRES_TEXT Option.none ',' =
        .error "Array is too deeply nested") := by
  have hh := castArray_uniform cfg d cs h h1
  simp only [MAX_ARRAY_DEPTH]
  exact ⟨fun hle => hh.1 hle, fun hge => hh.2 hge⟩

/-- Witness for C1: depth 16 parses, depth 17 (the spec's
`{{{{{{{{{{{{{{{{{1}}}}}}}}}}}}}}}}}` literal) fails. -/
theorem castArray_max_depth_witness :
    (castArray sampleConfig (renderD 16 (.node [deepT 15])) PYGRES_TEXT
      Option.none ',' = .ok ([deepT 15].map fun c => evalD 15 c)) ∧
    (castArray sampleConfig (renderD 17 (.node [deepT 16])) PYGRES_TEXT
      Option.none ',' = .error "Array is too deeply nested") :=
  ⟨(castArray_max_depth sampleConfig 16 [deepT 15] (by decide) (by decide)).1
      (by decide),
   (castArray_max_depth sampleConfig 17 [deepT 16] (by decide) (by decide)).2
      (by decide)⟩

/-! ## C4: the case-insensitive bare NULL token denotes a null element. -/

/-- C4: `cast_array` on `{1,NULL,3}` with the Int tag yields
`[1, None, 3]`; in general an unquoted element parses to the `None`
value exactly when it passes `STR_IS_NULL`, and any other unquoted
content is taken literally; and `STR_IS_NULL` holds exactly for the four
characters NULL compared case-insensitively. -/
theorem castArray_null_token :
    (castArray sampleConfig "{1,NULL,3}".toList PYGRES_INT Option.none
      (Char.ofNat 0) = .ok [.int 1, PValue.none, .int 3]) ∧
    (∀ (cfg : Config) (tok : List Char), plainTokB tok = true →
      castArray cfg ('{' :: (tok ++ ['}'])) PYGRES_TEXT Option.none ',' =
        .ok [if strIsNull tok then PValue.none else .text tok]) ∧
    (∀ s : List Char, strIsNull s = true ↔
      ∃ c0 c1 c2 c3, s = [c0, c1, c2, c3] ∧
        (c0 = 'n' ∨ c0 = 'N') ∧ (c1 = 'u' ∨ c1 = 'U') ∧
        (c2 = 'l' ∨ c2 = 'L') ∧ (c3 = 'l' ∨ c3 = 'L')) := by
  refine ⟨by rfl, ?_, ?_⟩
  · intro cfg tok hp
    have hu : uniformB 1 (.node [.leaf tok]) = true := by
      simp [uniformB, hp]
    have hres := (castArray_uniform cfg 1 [.leaf tok] hu (by omega)).1 (by omega)
    rw [renderD_node, renderRow_single] at hres
    simpa [renderD, evalD] using hres
  · intro s
    constructor
    · intro hh
      rcases s with _ | ⟨c0, _ | ⟨c1, _ | ⟨c2, _ | ⟨c3, _ | ⟨c4, t⟩⟩⟩⟩⟩ <;>
        simp [strIsNull] at hh
      exact ⟨c0, c1, c2, c3, rfl, hh.1, hh.2.1, hh.2.2.1, hh.2.2.2⟩
    · rintro ⟨c0, c1, c2, c3, rfl, h0, h1, h2, h3⟩
      simp [strIsNull]
      exact ⟨h0, h1, h2, h3⟩

/-- Witness for C4 at the mixed-case token `NuLl` (which yields a null
element). -/
theorem castArray_null_token_witness :
    castArray sampleConfig ('{' :: ("NuLl".toList ++ ['}'])) PYGRES_TEXT
      Option.none ',' =
      .ok [if strIsNull "NuLl".toList then PValue.none
           else .text "NuLl".toList] :=
  castArray_null_token.2.1 sampleConfig "NuLl".toList (by decide)

/-- Witness for C8 at concrete inputs: brace delimiter rejected, zero
delimiter equivalent to comma, semicolon delimiter not rejected. -/
theorem castArray_delimiter_validation_witness :
    castArray sampleConfig ([] ++ "{1}".toList) PYGRES_INT Option.none '{' =
      .error "Invalid array delimiter" ∧
    castArray sampleConfig "{1}".toList PYGRES_INT Option.none (Char.ofNat 0) =
      castArray sampleConfig "{1}".toList PYGRES_INT Option.none ',' ∧
    castArray sampleConfig "{1}".toList PYGRES_INT Option.none ';' ≠
      .error "Invalid array delimiter" :=
  ⟨(castArray_delimiter_validation sampleConfig PYGRES_INT
      ([] ++ "{1}".toList)).1 Option.none '{' (Or.inl rfl),
   (castArray_delimiter_validation sampleConfig PYGRES_INT
      "{1}".toList).2.1 Option.none,
   (castArray_delimiter_validation sampleConfig PYGRES_INT
      "{1}".toList).2.2 ';' (by decide)⟩

/-! ## Well-formed record literals for C6 and C7. -/

/-- A plain unquoted record field token: nonempty, no quote, closing
parenthesis, comma or backslash characters. -/
def recTokB (tok : List Char) : Bool :=
  !tok.isEmpty && tok.all fun c => !(c = '"' ∨ c = ')' ∨ c = ',' ∨ c = '\\')

/-- Rendering of one field: an empty bare field for NULL, else the token. -/
def renderField : Option (List Char) → List Char
  | Option.none => []
  | some tok => tok

/-- The body of a record literal: the fields joined by commas. -/
def renderFs (fs : List (Option (List Char))) : List Char :=
  List.intercalate [','] (fs.map renderField)

/-- The value `cast_record` produces for a field (text tag). -/
def evalF : Option (List Char) → PValue
  | Option.none => PValue.none
  | some tok => .text tok

def wfFields (fs : List (Option (List Char))) : Bool :=
  fs.all fun t => match t with
    | Option.none => true
    | some tok => recTokB tok

theorem renderFs_nil : renderFs [] = [] := by
  simp [renderFs, List.intercalate]

theorem renderFs_single (a : Option (List Char)) :
    renderFs [a] = renderField a := by
  simp [renderFs, List.intercalate]

theorem renderFs_cons (a : Option (List Char)) (fs : List (Option (List Char)))
    (h : fs ≠ []) :
    renderFs (a :: fs) = renderField a ++ ',' :: renderFs fs := by
  cases fs with
  | nil => exact absurd rfl h
  | cons b t => simp [renderFs, List.intercalate, List.intersperse]

theorem recTokB_facts (tok : List Char) (h : recTokB tok = true) :
    tok ≠ [] ∧ ∀ c ∈ tok, ¬c = '"' ∧ ¬c = ')' ∧ ¬c = ',' ∧ ¬c = '\\' := by
  simp only [recTokB, Bool.and_eq_true, List.all_eq_true, decide_eq_true_eq,
    Bool.not_eq_true', decide_eq_false_iff_not, not_or] at h
  obtain ⟨h1, h2⟩ := h
  refine ⟨?_, h2⟩
  intro he
  rw [he] at h1
  simp at h1

theorem scanField_plain (tok rest : List Char) (hp : recTokB tok = true)
    (hr : peekC rest = ')' ∨ peekC rest = ',') (hne : rest ≠ []) :
    scanField ',' false (tok ++ rest) = some (tok.length, tok, rest) := by
  have hf := (recTokB_facts tok hp).2
  clear hp
  induction tok with
  | nil =>
    cases rest with
    | nil => exact absurd rfl hne
    | cons r rs =>
      simp only [peekC] at hr
      unfold scanField
      rcases hr with h | h <;> simp [h]
  | cons c tok' ih =>
    have hc := hf c (by simp)
    have hf' : ∀ x ∈ tok', ¬x = '"' ∧ ¬x = ')' ∧ ¬x = ',' ∧ ¬x = '\\' :=
      fun x hx => hf x (by simp [hx])
    unfold scanField
    simp only [List.cons_append]
    rw [if_neg (by tauto), if_neg (by tauto), if_neg (by tauto)]
    rw [ih hf']
    rfl

theorem replicate_getD (len i : Nat) (h : i < len) :
    (List.replicate len PYGRES_TEXT).getD i 0 = PYGRES_TEXT := by
  induction len generalizing i with
  | zero => omega
  | succ n ih =>
    cases i with
    | zero => rfl
    | succ j =>
      have := ih j (by omega)
      simpa [List.replicate] using this

theorem recElemCast_text (cfg : Config) (len i : Nat) (h : i < len)
    (content : List Char) :
    recElemCast cfg (some (List.replicate len PYGRES_TEXT)) .nocast len i
      content = .ok (.text content) := by
  unfold recElemCast
  simp only []
  rw [replicate_getD len i h]
  simp +decide only [reduceIte]
  rfl

/-- The record main loop on a rendered row of well-formed fields: starting
at column `i < len` it consumes every field, appending `evalF` of each, and
fails with "Too many columns" exactly when the count overruns `len`. -/
theorem rLoop_fields (cfg : Config) (len : Nat) :
    ∀ (fs : List (Option (List Char))), wfFields fs = true → fs ≠ [] →
    ∀ (i : Nat), i < len →
    ∀ (result : List PValue) (c0 : Char) (f : Nat) (restX : List Char),
      rLoop cfg (some (List.replicate len PYGRES_TEXT)) .nocast len ','
          (fs.length + f) (c0 :: (renderFs fs ++ ')' :: restX)) result i =
        if i + fs.length ≤ len then
          .brk (result ++ fs.map evalF) (i + fs.length) (')' :: restX)
        else .err "Too many columns" := by
  intro fs
  induction fs with
  | nil =>
    intro _ hne
    exact absurd rfl hne
  | cons a fs' IH =>
  intro hwf _ i hi result c0 f restX
  have hwa : ∀ tok, a = some tok → recTokB tok = true := by
    intro tok ht
    simp only [wfFields, List.all_cons, Bool.and_eq_true] at hwf
    rw [ht] at hwf
    exact hwf.1
  have hwf' : wfFields fs' = true := by
    simp only [wfFields, List.all_cons, Bool.and_eq_true] at hwf
    exact hwf.2
  have hlen0 : len ≠ 0 := by omega
  rw [show (a :: fs').length + f = (fs'.length + f) + 1 from by simp; omega]
  cases a with
  | none =>
    cases fs' with
    | nil =>
      rw [renderFs_single]
      simp only [renderField, List.nil_append]
      conv_lhs => unfold rLoop
      simp only []
      simp +decide only [reduceIte, true_or, or_true, false_or, or_false,
        ne_eq, not_true, not_false_eq_true]
      rw [if_pos hlen0]
      rw [if_pos (show i + ([Option.none] :
        List (Option (List Char))).length ≤ len from by simp; omega)]
      simp [evalF]
    | cons b t =>
      rw [renderFs_cons _ _ (by simp)]
      simp only [renderField, List.nil_append]
      rw [List.cons_append]
      conv_lhs => unfold rLoop
      simp only []
      simp +decide only [reduceIte, true_or, or_true, false_or, or_false,
        ne_eq, not_true, not_false_eq_true]
      rw [if_pos hlen0]
      by_cases hge : i + 1 ≥ len
      · rw [if_pos (show len ≠ 0 ∧ i + 1 ≥ len from ⟨hlen0, hge⟩)]
        rw [if_neg (show ¬i + ((Option.none :: b :: t) :
          List (Option (List Char))).length ≤ len from by simp; omega)]
      · rw [if_neg (show ¬(len ≠ 0 ∧ i + 1 ≥ len) from by omega)]
        rw [IH hwf' (by simp) (i + 1) (by omega) (result ++ [PValue.none]) ','
          f restX]
        by_cases hcond : (i + 1) + (b :: t).length ≤ len
        · rw [if_pos hcond, if_pos (show i + ((Option.none :: b :: t) :
            List (Option (List Char))).length ≤ len from by
              simp at hcond ⊢; omega)]
          rw [show (i + 1) + (b :: t).length =
            i + ((Option.none :: b :: t) : List (Option (List Char))).length
            from by simp; omega]
          simp [evalF, List.append_assoc]
        · rw [if_neg hcond, if_neg (show ¬i + ((Option.none :: b :: t) :
            List (Option (List Char))).length ≤ len from by
              simp at hcond ⊢; omega)]
  | some tok =>
    obtain ⟨htne, hchars⟩ := recTokB_facts tok (hwa tok rfl)
    cases htokc : tok with
    | nil => exact absurd htokc htne
    | cons tc ttok =>
    subst htokc
    have hc := hchars tc (by simp)
    cases fs' with
    | nil =>
      rw [renderFs_single]
      simp only [renderField]
      have hscan := scanField_plain (tc :: ttok) (')' :: restX) (hwa _ rfl)
        (Or.inl rfl) (by simp)
      rw [show ((tc :: ttok : List Char) ++ ')' :: restX) =
        tc :: (ttok ++ ')' :: restX) from rfl] at hscan
      rw [List.cons_append]
      conv_lhs => unfold rLoop
      simp only []
      simp +decide only [reduceIte, hc.1, hc.2.1, hc.2.2.1, decide_False,
        true_or, or_true, false_or, or_false, ne_eq, not_true,
        not_false_eq_true]
      rw [hscan]
      simp only []
      rw [if_true]
      rw [recElemCast_text cfg len i hi]
      simp only []
      rw [if_pos hlen0]
      rw [if_pos (show (')' : Char) ≠ ',' from by decide)]
      rw [if_pos (show i + ([some (tc :: ttok)] :
        List (Option (List Char))).length ≤ len from by simp; omega)]
      simp [evalF]
    | cons b t =>
      rw [renderFs_cons _ _ (by simp)]
      simp only [renderField]
      have hscan := scanField_plain (tc :: ttok)
        (',' :: (renderFs (b :: t) ++ ')' :: restX)) (hwa _ rfl)
        (Or.inr rfl) (by simp)
      rw [show ((tc :: ttok : List Char) ++
        ',' :: (renderFs (b :: t) ++ ')' :: restX)) =
        tc :: (ttok ++ ',' :: (renderFs (b :: t) ++ ')' :: restX)) from rfl]
        at hscan
      rw [List.append_assoc, List.cons_append, List.cons_append]
      conv_lhs => unfold rLoop
      simp only []
      simp +decide only [reduceIte, hc.1, hc.2.1, hc.2.2.1, decide_False,
        true_or, or_true, false_or, or_false, ne_eq, not_true,
        not_false_eq_true]
      rw [hscan]
      simp only []
      rw [if_true]
      rw [recElemCast_text cfg len i hi]
      simp only []
      rw [if_pos hlen0]
      rw [if_neg (not_not_intro trivial)]
      by_cases hge : i + 1 ≥ len
      · rw [if_pos (show len ≠ 0 ∧ i + 1 ≥ len from ⟨hlen0, hge⟩)]
        rw [if_neg (show ¬i + ((some (tc :: ttok) :: b :: t) :
          List (Option (List Char))).length ≤ len from by simp; omega)]
      · rw [if_neg (show ¬(len ≠ 0 ∧ i + 1 ≥ len) from by omega)]
        rw [IH hwf' (by simp) (i + 1) (by omega)
          (result ++ [PValue.text (tc :: ttok)]) ',' f restX]
        by_cases hcond : (i + 1) + (b :: t).length ≤ len
        · rw [if_pos hcond, if_pos (show i + ((some (tc :: ttok) :: b :: t) :
            List (Option (List Char))).length ≤ len from by
              simp at hcond ⊢; omega)]
          rw [show (i + 1) + (b :: t).length =
            i + ((some (tc :: ttok) :: b :: t) :
              List (Option (List Char))).length from by simp; omega]
          simp [evalF, List.append_assoc]
        · rw [if_neg hcond, if_neg (show ¬i + ((some (tc :: ttok) :: b :: t) :
            List (Option (List Char))).length ≤ len from by
              simp at hcond ⊢; omega)]

theorem renderFs_len (fs : List (Option (List Char))) :
    fs.length ≤ (renderFs fs).length + 1 := by
  induction fs with
  | nil => simp
  | cons a fs' IH =>
    cases fs' with
    | nil => rw [renderFs_single]; simp
    | cons b t =>
      rw [renderFs_cons _ _ (by simp)]
      simp only [List.length_cons, List.length_append] at IH ⊢
      omega

theorem castRecord_fields (cfg : Config) (len : Nat)
    (fs : List (Option (List Char))) (hwf : wfFields fs = true)
    (hne : fs ≠ []) (hlen : 0 < len) :
    castRecord cfg ('(' :: (renderFs fs ++ [')']))
        (some (List.replicate len PYGRES_TEXT)) .nocast len (Char.ofNat 0) =
      if fs.length < len then .error "Too few columns"
      else if len < fs.length then .error "Too many columns"
      else .ok (fs.map evalF) := by
  unfold castRecord
  rw [if_neg (by decide)]
  simp +decide only [reduceIte]
  rw [skipSp_no_space _ (by rw [peekC_cons]; decide)]
  simp only []
  rw [show ('(' :: (renderFs fs ++ [')']) : List Char).length + 1 =
    fs.length + ((renderFs fs).length + 3 - fs.length) from by
      have := renderFs_len fs
      simp only [List.length_cons, List.length_append, List.length_nil]
        at this ⊢
      omega]
  rw [rLoop_fields cfg len fs hwf hne 0 hlen [] '('
    ((renderFs fs).length + 3 - fs.length) []]
  simp only [Nat.zero_add, List.nil_append]
  by_cases hle : fs.length ≤ len
  · rw [if_pos hle]
    simp only []
    rw [show skipSp ([] : List Char) = [] from rfl]
    rw [if_neg (by simp)]
    by_cases hfew : fs.length < len
    · rw [if_pos (show len ≠ 0 ∧ fs.length < len from ⟨by omega, hfew⟩)]
      rw [if_pos hfew]
    · rw [if_neg (show ¬(len ≠ 0 ∧ fs.length < len) from by omega)]
      rw [if_neg hfew, if_neg (by omega)]
  · rw [if_neg hle]
    rw [if_neg (by omega), if_pos (by omega)]

/-- C6: in `cast_record` an empty unquoted field yields the `None` value for
that position: concretely, `cast_record("(1,\"hello, world\",)")` with tags
`[Int, Text, Text]` gives `(1, "hello, world", None)`; in general a record
rendered from well-formed optional fields maps every empty bare field
(`Option.none`, rendered as the empty string between delimiters) to
`PValue.none` in its position, and `evalF Option.none = PValue.none`. -/
theorem castRecord_empty_field (cfg : Config)
    (fs : List (Option (List Char))) (hwf : wfFields fs = true)
    (hne : fs ≠ []) :
    castRecord sampleConfig "(1,\"hello, world\",)".toList
        (some [PYGRES_INT, PYGRES_TEXT, PYGRES_TEXT]) .nocast 3
        (Char.ofNat 0) =
      .ok [.int 1, .text "hello, world".toList, PValue.none] ∧
    castRecord cfg ('(' :: (renderFs fs ++ [')']))
        (some (List.replicate fs.length PYGRES_TEXT)) .nocast fs.length
        (Char.ofNat 0) = .ok (fs.map evalF) ∧
    evalF Option.none = PValue.none := by
  refine ⟨rfl, ?_, rfl⟩
  have hlen : 0 < fs.length := List.length_pos.mpr hne
  rw [castRecord_fields cfg fs.length fs hwf hne hlen]
  rw [if_neg (by omega), if_neg (by omega)]

theorem castRecord_empty_field_witness :
    wfFields [some ['a'], Option.none] = true ∧
    ([some ['a'], Option.none] : List (Option (List Char))) ≠ [] ∧
    (castRecord sampleConfig "(1,\"hello, world\",)".toList
        (some [PYGRES_INT, PYGRES_TEXT, PYGRES_TEXT]) .nocast 3
        (Char.ofNat 0) =
      .ok [.int 1, .text "hello, world".toList, PValue.none] ∧
    castRecord sampleConfig
        ('(' :: (renderFs [some ['a'], Option.none] ++ [')']))
        (some (List.replicate ([some ['a'], Option.none] :
          List (Option (List Char))).length PYGRES_TEXT)) .nocast
        ([some ['a'], Option.none] : List (Option (List Char))).length
        (Char.ofNat 0) =
      .ok (([some ['a'], Option.none] :
        List (Option (List Char))).map evalF) ∧
    evalF Option.none = PValue.none) :=
  ⟨by decide, by simp,
   castRecord_empty_field sampleConfig [some ['a'], Option.none]
     (by decide) (by simp)⟩

/-- C7: with a positive expected length, `cast_record` on a record literal
of well-formed fields fails with "Too many columns" when there are more
fields than expected, with "Too few columns" when there are fewer, and
returns the parsed tuple on exact match. -/
theorem castRecord_column_count (cfg : Config) (len : Nat) (hlen : 0 < len)
    (fs : List (Option (List Char))) (hwf : wfFields fs = true)
    (hne : fs ≠ []) :
    (len < fs.length →
      castRecord cfg ('(' :: (renderFs fs ++ [')']))
        (some (List.replicate len PYGRES_TEXT)) .nocast len (Char.ofNat 0) =
      .error "Too many columns") ∧
    (fs.length < len →
      castRecord cfg ('(' :: (renderFs fs ++ [')']))
        (some (List.replicate len PYGRES_TEXT)) .nocast len (Char.ofNat 0) =
      .error "Too few columns") ∧
    (fs.length = len →
      castRecord cfg ('(' :: (renderFs fs ++ [')']))
        (some (List.replicate len PYGRES_TEXT)) .nocast len (Char.ofNat 0) =
      .ok (fs.map evalF)) := by
  rw [castRecord_fields cfg len fs hwf hne hlen]
  refine ⟨?_, ?_, ?_⟩
  · intro h
    rw [if_neg (by omega), if_pos (by omega)]
  · intro h
    rw [if_pos h]
  · intro h
    rw [if_neg (by omega), if_neg (by omega)]

theorem castRecord_column_count_witness :
    0 < 2 ∧ wfFields [some ['a'], Option.none] = true ∧
    ([some ['a'], Option.none] : List (Option (List Char))) ≠ [] ∧
    castRecord sampleConfig
        ('(' :: (renderFs [some ['a'], Option.none] ++ [')']))
        (some (List.replicate 1 PYGRES_TEXT)) .nocast 1 (Char.ofNat 0) =
      .error "Too many columns" ∧
    castRecord sampleConfig
        ('(' :: (renderFs [some ['a'], Option.none] ++ [')']))
        (some (List.replicate 3 PYGRES_TEXT)) .nocast 3 (Char.ofNat 0) =
      .error "Too few columns" ∧
    castRecord sampleConfig
        ('(' :: (renderFs [some ['a'], Option.none] ++ [')']))
        (some (List.replicate 2 PYGRES_TEXT)) .nocast 2 (Char.ofNat 0) =
      .ok (([some ['a'], Option.none] :
        List (Option (List Char))).map evalF) :=
  ⟨by decide, by decide, by simp,
   (castRecord_column_count sampleConfig 1 (by decide)
     [some ['a'], Option.none] (by decide) (by simp)).1 (by decide),
   (castRecord_column_count sampleConfig 3 (by decide)
     [some ['a'], Option.none] (by decide) (by simp)).2.1 (by decide),
   (castRecord_column_count sampleConfig 2 (by decide)
     [some ['a'], Option.none] (by decide) (by simp)).2.2 (by decide)⟩

/-! ## Well-formed hstore literals for C5 and C10. -/

/-- A plain unquoted hstore token: nonempty and free of quote, backslash,
equals, comma and space characters (so the key/value scans stop exactly at
the following delimiter). -/
def hTokB (tok : List Char) : Bool :=
  !tok.isEmpty && tok.all fun c =>
    !(c = '"' ∨ c = '\\' ∨ c = '=' ∨ c = ',' ∨ c = ' ')

def wfPairs (ps : List (List Char × List Char)) : Bool :=
  ps.all fun kv => hTokB kv.1 && hTokB kv.2

/-- Rendering of one `key=>value` pair. -/
def renderPair (kv : List Char × List Char) : List Char :=
  kv.1 ++ '=' :: '>' :: kv.2

/-- An hstore literal: the pairs joined by commas. -/
def renderPairs : List (List Char × List Char) → List Char
  | [] => []
  | [kv] => renderPair kv
  | kv :: q :: ps => renderPair kv ++ ',' :: renderPairs (q :: ps)

/-- The value `cast_hstore` produces for a plain unquoted value token. -/
def evalHV (v : List Char) : PValue :=
  if strIsNull v then PValue.none else PValue.text v

/-- The dictionary built by the loop: `PyDict_SetItem` for each pair in
order. -/
def hFold (m : List (List Char × PValue))
    (ps : List (List Char × List Char)) : List (List Char × PValue) :=
  ps.foldl (fun acc kv => setItem acc kv.1 (evalHV kv.2)) m

/-- Lookup in the dictionary model: the first entry with the given key. -/
def hLookup (m : List (List Char × PValue)) (k : List Char) : Option PValue :=
  match m with
  | [] => Option.none
  | (k0, v0) :: rest => if k0 = k then some v0 else hLookup rest k

theorem hTokB_facts (tok : List Char) (h : hTokB tok = true) :
    tok ≠ [] ∧ ∀ c ∈ tok,
      ¬c = '"' ∧ ¬c = '\\' ∧ ¬c = '=' ∧ ¬c = ',' ∧ ¬c = ' ' := by
  simp only [hTokB, Bool.and_eq_true, List.all_eq_true, decide_eq_true_eq,
    Bool.not_eq_true', decide_eq_false_iff_not, not_or] at h
  obtain ⟨h1, h2⟩ := h
  refine ⟨?_, h2⟩
  intro he
  rw [he] at h1
  simp at h1

theorem scanH_plain (stops tok rest : List Char)
    (htok : ∀ c ∈ tok, c ∉ stops ∧ ¬c = '\\')
    (hr : rest = [] ∨ peekC rest ∈ stops ∧ rest ≠ []) :
    scanH stops (tok ++ rest) = (tok, 0, rest) := by
  induction tok with
  | nil =>
    rcases hr with h | ⟨hin, hne⟩
    · rw [h]; rfl
    · cases rest with
      | nil => exact absurd rfl hne
      | cons c t =>
        rw [peekC_cons] at hin
        simp only [List.nil_append]
        unfold scanH
        rw [if_pos hin]
  | cons c tok' IH =>
    have hc := htok c (by simp)
    have IH' := IH (fun c hc => htok c (by simp [hc]))
    rw [List.cons_append]
    unfold scanH
    rw [if_neg hc.1, if_neg hc.2]
    rw [IH']

theorem renderPairs_single (kv : List Char × List Char) :
    renderPairs [kv] = renderPair kv := rfl

theorem renderPairs_cons (kv : List Char × List Char)
    (ps : List (List Char × List Char)) (h : ps ≠ []) :
    renderPairs (kv :: ps) = renderPair kv ++ ',' :: renderPairs ps := by
  cases ps with
  | nil => exact absurd rfl h
  | cons q t => rfl

theorem renderPairs_head (ps : List (List Char × List Char))
    (hwf : wfPairs ps = true) (hne : ps ≠ []) :
    ∃ c t, renderPairs ps = c :: t ∧ ¬c = ' ' ∧ ¬c = '"' := by
  cases ps with
  | nil => exact absurd rfl hne
  | cons kv ps' =>
    obtain ⟨k, v⟩ := kv
    have hk : hTokB k = true := by
      simp only [wfPairs, List.all_cons, Bool.and_eq_true] at hwf
      exact hwf.1.1
    obtain ⟨hkne, hkchars⟩ := hTokB_facts k hk
    cases hkc : k with
    | nil => exact absurd hkc hkne
    | cons kc k' =>
      subst hkc
      have hcf := hkchars kc (by simp)
      cases ps' with
      | nil =>
        exact ⟨kc, k' ++ '=' :: '>' :: v,
          by rw [renderPairs_single]; rfl, hcf.2.2.2.2, hcf.1⟩
      | cons q t =>
        refine ⟨kc, (k' ++ '=' :: '>' :: v) ++ ',' :: renderPairs (q :: t),
          ?_, hcf.2.2.2.2, hcf.1⟩
        rw [renderPairs_cons _ _ (by simp)]
        simp [renderPair]

theorem hLoop_nil (cfg : Config) (f : Nat) (m : List (List Char × PValue)) :
    hLoop cfg (f + 1) [] m = .done m := rfl

theorem hLoop_pairs (cfg : Config) :
    ∀ (ps : List (List Char × List Char)), wfPairs ps = true → ps ≠ [] →
    ∀ (m : List (List Char × PValue)) (f : Nat),
      hLoop cfg (ps.length + (f + 1)) (renderPairs ps) m =
        .done (hFold m ps) := by
  intro ps
  induction ps with
  | nil =>
    intro _ hne
    exact absurd rfl hne
  | cons kv ps' IH =>
  intro hwf _ m f
  obtain ⟨k, v⟩ := kv
  have hkv : hTokB k = true ∧ hTokB v = true := by
    simp only [wfPairs, List.all_cons, Bool.and_eq_true] at hwf
    exact hwf.1
  have hwf' : wfPairs ps' = true := by
    simp only [wfPairs, List.all_cons, Bool.and_eq_true] at hwf
    exact hwf.2
  obtain ⟨hkne, hkchars⟩ := hTokB_facts k hkv.1
  obtain ⟨hvne, hvchars⟩ := hTokB_facts v hkv.2
  cases hkc : k with
  | nil => exact absurd hkc hkne
  | cons kc k' =>
  subst hkc
  have hkcf := hkchars kc (by simp)
  cases hvc : v with
  | nil => exact absurd hvc hvne
  | cons vc v' =>
  subst hvc
  have hvcf := hvchars vc (by simp)
  have hkstops : ∀ c ∈ kc :: k', c ∉ (['=', ' '] : List Char) ∧
      ¬c = '\\' := by
    intro c hcm
    have h := hkchars c hcm
    refine ⟨?_, h.2.1⟩
    simp only [List.mem_cons, List.not_mem_nil, or_false, not_or]
    exact ⟨h.2.2.1, h.2.2.2.2⟩
  have hvstops : ∀ c ∈ vc :: v', c ∉ ([',', ' '] : List Char) ∧
      ¬c = '\\' := by
    intro c hcm
    have h := hvchars c hcm
    refine ⟨?_, h.2.1⟩
    simp only [List.mem_cons, List.not_mem_nil, or_false, not_or]
    exact ⟨h.2.2.2.1, h.2.2.2.2⟩
  rw [show ((kc :: k', vc :: v') :: ps').length + (f + 1) =
    (ps'.length + (f + 1)) + 1 from by simp only [List.length_cons]; omega]
  cases ps' with
  | nil =>
    rw [renderPairs_single]
    have hscanK := scanH_plain ['=', ' '] (kc :: k') ('=' :: '>' :: vc :: v')
      hkstops (Or.inr ⟨by rw [peekC_cons]; simp, by simp⟩)
    simp only [List.cons_append] at hscanK
    have hscanV := scanH_plain [',', ' '] (vc :: v') [] hvstops (Or.inl rfl)
    rw [List.append_nil] at hscanV
    simp only [renderPair, List.cons_append]
    conv_lhs => unfold hLoop
    simp only []
    rw [skipSp_no_space _ (by rw [peekC_cons]; exact hkcf.2.2.2.2)]
    simp only []
    simp +decide only [reduceIte, hkcf.1, true_or, or_true, false_or,
      or_false, ne_eq, not_true, not_false_eq_true]
    rw [hscanK]
    simp only []
    rw [if_neg (fun h => List.cons_ne_nil kc k' h.2)]
    rw [skipSp_no_space _ (by rw [peekC_cons]; decide)]
    simp only []
    rw [skipSp_no_space _ (by rw [peekC_cons]; exact hvcf.2.2.2.2)]
    simp +decide only [reduceIte, peekC_cons, hvcf.1, ne_eq, not_true,
      not_false_eq_true]
    rw [hscanV]
    simp only []
    rw [if_neg (List.cons_ne_nil vc v')]
    rw [show skipSp ([] : List Char) = [] from rfl]
    simp only []
    rw [show ([] : List (List Char × List Char)).length + (f + 1) = f + 1
      from by simp]
    rw [hLoop_nil]
    simp [hFold, evalHV]
  | cons q t =>
    rw [renderPairs_cons _ _ (by simp)]
    have hscanK := scanH_plain ['=', ' '] (kc :: k')
      ('=' :: '>' :: ((vc :: v') ++ ',' :: renderPairs (q :: t)))
      hkstops (Or.inr ⟨by rw [peekC_cons]; simp, by simp⟩)
    simp only [List.cons_append] at hscanK
    have hscanV := scanH_plain [',', ' '] (vc :: v')
      (',' :: renderPairs (q :: t)) hvstops
      (Or.inr ⟨by rw [peekC_cons]; simp, by simp⟩)
    simp only [List.cons_append] at hscanV
    obtain ⟨c2, t2, hct, hcsp, hcq⟩ := renderPairs_head (q :: t) hwf'
      (by simp)
    simp only [renderPair, List.cons_append, List.append_assoc]
    conv_lhs => unfold hLoop
    simp only []
    rw [skipSp_no_space _ (by rw [peekC_cons]; exact hkcf.2.2.2.2)]
    simp only []
    simp +decide only [reduceIte, hkcf.1, true_or, or_true, false_or,
      or_false, ne_eq, not_true, not_false_eq_true]
    rw [hscanK]
    simp only []
    rw [if_neg (fun h => List.cons_ne_nil kc k' h.2)]
    rw [skipSp_no_space _ (by rw [peekC_cons]; decide)]
    simp only []
    rw [skipSp_no_space _ (by rw [peekC_cons]; exact hvcf.2.2.2.2)]
    simp +decide only [reduceIte, peekC_cons, hvcf.1, ne_eq, not_true,
      not_false_eq_true]
    rw [hscanV]
    simp only []
    rw [if_neg (List.cons_ne_nil vc v')]
    rw [skipSp_no_space _ (by rw [peekC_cons]; decide)]
    simp only []
    rw [hct]
    rw [skipSp_no_space _ (by rw [peekC_cons]; exact hcsp)]
    simp only []
    rw [← hct]
    rw [if_neg (not_not_intro trivial)]
    rw [IH hwf' (by simp) (setItem m (kc :: k')
      (if strIsNull (vc :: v') then PValue.none
       else PValue.text (vc :: v'))) f]
    simp [hFold, evalHV]

theorem renderPairs_len (ps : List (List Char × List Char)) :
    ps.length ≤ (renderPairs ps).length := by
  induction ps with
  | nil => simp [renderPairs]
  | cons kv ps' IH =>
    cases ps' with
    | nil =>
      simp only [renderPairs, renderPair, List.length_cons,
        List.length_append, List.length_nil]
      omega
    | cons q t =>
      rw [renderPairs_cons _ _ (by simp)]
      simp only [List.length_cons, List.length_append, renderPair,
        List.length_cons] at IH ⊢
      omega

theorem castHstore_pairs (cfg : Config)
    (ps : List (List Char × List Char)) (hwf : wfPairs ps = true)
    (hne : ps ≠ []) :
    castHstore cfg (renderPairs ps) = .ok (hFold [] ps) := by
  unfold castHstore
  rw [show (renderPairs ps).length + 1 =
    ps.length + (((renderPairs ps).length - ps.length) + 1) from by
      have := renderPairs_len ps
      omega]
  rw [hLoop_pairs cfg ps hwf hne [] _]

/-- First-match lookup over the raw pair list (`some` value of the first
pair with the given key, scanning left to right). -/
def lookupPairs : List (List Char × List Char) → List Char → Option (List Char)
  | [], _ => Option.none
  | kv :: t, k => if kv.1 = k then some kv.2 else lookupPairs t k

theorem lookupPairs_append (l1 l2 : List (List Char × List Char))
    (k : List Char) :
    lookupPairs (l1 ++ l2) k =
      (lookupPairs l1 k).elim (lookupPairs l2 k) (fun v => some v) := by
  induction l1 with
  | nil => simp [lookupPairs]
  | cons kv t IH =>
    rw [List.cons_append]
    by_cases h : kv.1 = k
    · rw [show lookupPairs (kv :: (t ++ l2)) k = some kv.2 from by
        unfold lookupPairs; rw [if_pos h]]
      rw [show lookupPairs (kv :: t) k = some kv.2 from by
        unfold lookupPairs; rw [if_pos h]]
      rfl
    · rw [show lookupPairs (kv :: (t ++ l2)) k =
        lookupPairs (t ++ l2) k from by
          conv_lhs => unfold lookupPairs
          rw [if_neg h]]
      rw [show lookupPairs (kv :: t) k = lookupPairs t k from by
        conv_lhs => unfold lookupPairs
        rw [if_neg h]]
      exact IH

theorem hLookup_setItem (m : List (List Char × PValue)) (k k' : List Char)
    (v : PValue) :
    hLookup (setItem m k v) k' =
      if k = k' then some v else hLookup m k' := by
  induction m with
  | nil =>
    simp only [setItem, hLookup]
  | cons kv0 m' IH =>
    obtain ⟨k0, v0⟩ := kv0
    by_cases h0 : k0 = k
    · subst h0
      rw [show setItem ((k0, v0) :: m') k0 v = (k0, v) :: m' from by
        unfold setItem; rw [if_pos rfl]]
      by_cases h1 : k0 = k'
      · rw [show hLookup ((k0, v) :: m') k' = some v from by
          unfold hLookup; rw [if_pos h1], if_pos h1]
      · rw [show hLookup ((k0, v) :: m') k' = hLookup m' k' from by
          conv_lhs => unfold hLookup
          rw [if_neg h1]]
        rw [if_neg h1]
        rw [show hLookup ((k0, v0) :: m') k' = hLookup m' k' from by
          conv_lhs => unfold hLookup
          rw [if_neg h1]]
    · rw [show setItem ((k0, v0) :: m') k v =
        (k0, v0) :: setItem m' k v from by
          conv_lhs => unfold setItem
          rw [if_neg h0]]
      by_cases h1 : k0 = k'
      · rw [show hLookup ((k0, v0) :: setItem m' k v) k' = some v0 from by
          unfold hLookup; rw [if_pos h1]]
        rw [show hLookup ((k0, v0) :: m') k' = some v0 from by
          unfold hLookup; rw [if_pos h1]]
        rw [if_neg (show ¬k = k' from fun hkk => h0 (h1.trans hkk.symm))]
      · rw [show hLookup ((k0, v0) :: setItem m' k v) k' =
          hLookup (setItem m' k v) k' from by
            conv_lhs => unfold hLookup
            rw [if_neg h1]]
        rw [show hLookup ((k0, v0) :: m') k' = hLookup m' k' from by
          conv_lhs => unfold hLookup
          rw [if_neg h1]]
        exact IH

theorem hLookup_hFold (k : List Char) :
    ∀ (ps : List (List Char × List Char)) (m : List (List Char × PValue)),
      hLookup (hFold m ps) k =
        (lookupPairs ps.reverse k).elim (hLookup m k)
          (fun v => some (evalHV v)) := by
  intro ps
  induction ps with
  | nil =>
    intro m
    simp [hFold, lookupPairs]
  | cons kv ps' IH =>
    intro m
    rw [show hFold m (kv :: ps') =
      hFold (setItem m kv.1 (evalHV kv.2)) ps' from rfl]
    rw [IH]
    rw [List.reverse_cons, lookupPairs_append]
    cases hf : lookupPairs ps'.reverse k with
    | none =>
      simp only [Option.elim]
      rw [hLookup_setItem]
      by_cases h : kv.1 = k
      · simp [lookupPairs, h]
      · simp [lookupPairs, h]
    | some v =>
      simp only [Option.elim]

/-- C5 counterexample: the lowercase unquoted value `null` (a casing
other than the exact token `NULL`) is detected as a null map value by
`cast_hstore`, not returned as literal text. -/
theorem castHstore_null_case_counterexample :
    castHstore sampleConfig "a=>null".toList =
      .ok [(['a'], PValue.none)] ∧
    PValue.none ≠ PValue.text "null".toList :=
  ⟨rfl, fun h => PValue.noConfusion h⟩

/-- C5 (amended): in `cast_hstore` an unquoted value is detected as NULL
by the case-insensitive four-character comparison `strIsNull` (any casing
of the letters n-u-l-l), yielding a null map value, and any other
unquoted value is returned as literal text; keys are never subject to
this NULL detection (the key below is returned verbatim even when it is
itself a casing of NULL). -/
theorem castHstore_null_token (cfg : Config) (k v : List Char)
    (hk : hTokB k = true) (hv : hTokB v = true) :
    castHstore cfg (renderPair (k, v)) =
      .ok [(k, if strIsNull v then PValue.none else PValue.text v)] ∧
    (strIsNull v = true ↔ ∃ c0 c1 c2 c3, v = [c0, c1, c2, c3] ∧
      (c0 = 'n' ∨ c0 = 'N') ∧ (c1 = 'u' ∨ c1 = 'U') ∧
      (c2 = 'l' ∨ c2 = 'L') ∧ (c3 = 'l' ∨ c3 = 'L')) := by
  constructor
  · have h := castHstore_pairs cfg [(k, v)]
      (by simp [wfPairs, hk, hv]) (by simp)
    rw [renderPairs_single] at h
    rw [h]
    simp [hFold, evalHV, setItem]
  · constructor
    · intro hh
      rcases v with _ | ⟨c0, _ | ⟨c1, _ | ⟨c2, _ | ⟨c3, _ | ⟨c4, t⟩⟩⟩⟩⟩ <;>
        simp [strIsNull] at hh
      exact ⟨c0, c1, c2, c3, rfl, hh.1, hh.2.1, hh.2.2.1, hh.2.2.2⟩
    · rintro ⟨c0, c1, c2, c3, rfl, h0, h1, h2, h3⟩
      simp [strIsNull]
      exact ⟨h0, h1, h2, h3⟩

/-- Witness for C5 at the key `NULL` and the mixed-case value `NuLl`: the
value is detected as null, the key is returned verbatim. -/
theorem castHstore_null_token_witness :
    hTokB "NULL".toList = true ∧ hTokB "NuLl".toList = true ∧
    castHstore sampleConfig (renderPair ("NULL".toList, "NuLl".toList)) =
      .ok [("NULL".toList,
        if strIsNull "NuLl".toList then PValue.none
        else PValue.text "NuLl".toList)] :=
  ⟨by decide, by decide,
   (castHstore_null_token sampleConfig "NULL".toList "NuLl".toList
     (by decide) (by decide)).1⟩

/-- C10: on an hstore literal of well-formed pairs `cast_hstore`
succeeds, and for every key the resulting dictionary binds it to the
value of its last occurrence in left-to-right order (the first match in
the reversed pair list). -/
theorem castHstore_duplicate_keys (cfg : Config)
    (ps : List (List Char × List Char)) (hwf : wfPairs ps = true)
    (hne : ps ≠ []) (k : List Char) :
    castHstore cfg (renderPairs ps) = .ok (hFold [] ps) ∧
    hLookup (hFold [] ps) k = (lookupPairs ps.reverse k).map evalHV := by
  refine ⟨castHstore_pairs cfg ps hwf hne, ?_⟩
  rw [hLookup_hFold k ps []]
  cases lookupPairs ps.reverse k with
  | none => rfl
  | some v => rfl

/-- Witness for C10 at the duplicate-key literal `a=>1,a=>2`: the map
binds `a` to the last value `2`. -/
theorem castHstore_duplicate_keys_witness :
    wfPairs [(['a'], ['1']), (['a'], ['2'])] = true ∧
    ([(['a'], ['1']), (['a'], ['2'])] :
      List (List Char × List Char)) ≠ [] ∧
    (castHstore sampleConfig
        (renderPairs [(['a'], ['1']), (['a'], ['2'])]) =
      .ok (hFold [] [(['a'], ['1']), (['a'], ['2'])]) ∧
    hLookup (hFold [] [(['a'], ['1']), (['a'], ['2'])]) ['a'] =
      (lookupPairs ([(['a'], ['1']), (['a'], ['2'])] :
        List (List Char × List Char)).reverse ['a']).map evalHV) :=
  ⟨by decide, by simp,
   castHstore_duplicate_keys sampleConfig [(['a'], ['1']), (['a'], ['2'])]
     (by decide) (by simp) ['a']⟩

end PyGre
